import Mathlib

/-!
Verification development for the MCPAgent stream orchestration layer
(`mcp_use/agents/mcpagent.py`).

The Python code is shallowly embedded as pure Lean functions.  LangChain
messages become the `Msg` structure; Python content values (strings, lists,
dicts, provider objects) become the `Val` inductive; the external
`CompiledStateGraph.astream` executor and the `ServerManager.tools` property
are scripted by an `Env` record (one node-output stream per executor
invocation, and the sequence of tool-name lists returned by successive reads
of `server_manager.tools`).  The `stream` method's restart loop, message
accumulation, pending-tool-call bookkeeping and final-answer tracking are
translated statement by statement from `MCPAgent.stream`.  Ghost fields
(`emitted`, `processedMsgs`, `toolCallsSeen`, `newToolNames`, `restartSnaps`)
record the observable history of a run without influencing it.
-/

set_option maxHeartbeats 1000000

namespace McpUse

/-- Role tag of a LangChain message (`message.type`): HumanMessage ("human"),
AIMessage ("ai") or ToolMessage ("tool"); these are the only message kinds
that occur in the node outputs consumed by `MCPAgent.stream`. -/
inductive Role where
  | human
  | ai
  | tool
deriving DecidableEq

/-- A Python content value as handled by `MCPAgent._normalize_output`:
a plain string, a list, a dict (association list of string keys), or a
provider object carrying an optional `.text` attribute, an optional
`.content` attribute, and a fixed rendering `rep` returned by `str(obj)`. -/
inductive Val where
  | vstr (s : String)
  | vlist (items : List Val)
  | vdict (entries : List (String × Val))
  | vobj (text : Option Val) (content : Option Val) (rep : String)

mutual

def vbeq : Val → Val → Bool
  | .vstr a, .vstr b => a == b
  | .vlist a, .vlist b => lbeq a b
  | .vdict a, .vdict b => pbeq a b
  | .vobj t1 c1 r1, .vobj t2 c2 r2 => obeq t1 t2 && obeq c1 c2 && r1 == r2
  | _, _ => false
termination_by structural a => a

def lbeq : List Val → List Val → Bool
  | [], [] => true
  | x :: xs, y :: ys => vbeq x y && lbeq xs ys
  | _, _ => false
termination_by structural a => a

def pbeq : List (String × Val) → List (String × Val) → Bool
  | [], [] => true
  | (k1, v1) :: xs, (k2, v2) :: ys => k1 == k2 && vbeq v1 v2 && pbeq xs ys
  | _, _ => false
termination_by structural a => a

def obeq : Option Val → Option Val → Bool
  | none, none => true
  | some a, some b => vbeq a b
  | _, _ => false
termination_by structural a => a

end

mutual

theorem vbeq_iff : ∀ a b : Val, vbeq a b = true ↔ a = b
  | .vstr a, .vstr b => by simp [vbeq]
  | .vstr _, .vlist _ => by simp [vbeq]
  | .vstr _, .vdict _ => by simp [vbeq]
  | .vstr _, .vobj _ _ _ => by simp [vbeq]
  | .vlist _, .vstr _ => by simp [vbeq]
  | .vlist a, .vlist b => by
    have h := lbeq_iff a b
    simp [vbeq, h]
  | .vlist _, .vdict _ => by simp [vbeq]
  | .vlist _, .vobj _ _ _ => by simp [vbeq]
  | .vdict _, .vstr _ => by simp [vbeq]
  | .vdict _, .vlist _ => by simp [vbeq]
  | .vdict a, .vdict b => by
    have h := pbeq_iff a b
    simp [vbeq, h]
  | .vdict _, .vobj _ _ _ => by simp [vbeq]
  | .vobj _ _ _, .vstr _ => by simp [vbeq]
  | .vobj _ _ _, .vlist _ => by simp [vbeq]
  | .vobj _ _ _, .vdict _ => by simp [vbeq]
  | .vobj t1 c1 r1, .vobj t2 c2 r2 => by
    have h1 := obeq_iff t1 t2
    have h2 := obeq_iff c1 c2
    simp [vbeq, h1, h2, Bool.and_eq_true, and_assoc]

theorem lbeq_iff : ∀ a b : List Val, lbeq a b = true ↔ a = b
  | [], [] => by simp [lbeq]
  | [], _ :: _ => by simp [lbeq]
  | _ :: _, [] => by simp [lbeq]
  | x :: xs, y :: ys => by
    have h1 := vbeq_iff x y
    have h2 := lbeq_iff xs ys
    simp [lbeq, h1, h2, Bool.and_eq_true]

theorem pbeq_iff : ∀ a b : List (String × Val), pbeq a b = true ↔ a = b
  | [], [] => by simp [pbeq]
  | [], _ :: _ => by simp [pbeq]
  | _ :: _, [] => by simp [pbeq]
  | (k1, v1) :: xs, (k2, v2) :: ys => by
    have h1 := vbeq_iff v1 v2
    have h2 := pbeq_iff xs ys
    simp [pbeq, h1, h2, Bool.and_eq_true, Prod.mk.injEq, and_assoc]

theorem obeq_iff : ∀ a b : Option Val, obeq a b = true ↔ a = b
  | none, none => by simp [obeq]
  | none, some _ => by simp [obeq]
  | some _, none => by simp [obeq]
  | some a, some b => by
    have h := vbeq_iff a b
    simp [obeq, h]

end

instance : DecidableEq Val := fun a b =>
  if h : vbeq a b = true then isTrue ((vbeq_iff a b).mp h)
  else isFalse (fun he => h ((vbeq_iff a b).mpr he))

/-- One entry of `message.tool_calls`: `tool_call.get("name")`,
`tool_call.get("args")` (kept as its string rendering, which is all the
orchestrator ever does with it), and `tool_call.get("id")`. -/
structure ToolCall where
  name : String
  args : String
  id : Option String
deriving DecidableEq

/-- A LangChain message as seen by `MCPAgent.stream`: its role, its
`.content`, its `.tool_calls` (nonempty only on AI messages) and, for tool
messages, its `.tool_call_id`.  LangChain messages are pydantic models and
compare structurally, which is exactly Lean value equality on `Msg`. -/
structure Msg where
  role : Role
  content : Val
  toolCalls : List ToolCall
  toolCallId : Option String
deriving DecidableEq

/-- `langchain_core.agents.AgentAction` as constructed in `stream`:
`AgentAction(tool=tool_name, tool_input=tool_input, log=log_text)`. -/
structure Action where
  tool : String
  toolInput : String
  log : String
deriving DecidableEq

/-- One `(action, observation)` pair yielded by `stream`, instrumented with
the call identifier that was popped from `pending_tool_calls` to produce it.
The observation is kept as the raw `message.content` value; the code yields
`str(observation)`, a pure function of it. -/
structure Event where
  callId : String
  action : Action
  observation : Val
deriving DecidableEq

/-- Ghost snapshot taken at the moment a mid-run restart fires: the
`accumulated_messages` list at that point and the role of the message whose
processing triggered the restart. -/
structure Snap where
  acc : List Msg
  lastRole : Role
deriving DecidableEq

/-- The external world of one `stream` call: `streams` scripts the node
outputs produced by each successive `self._agent_executor.astream(...)`
invocation (each chunk of the LangGraph stream is flattened to the list of
its node outputs, consumed in order; a node output is the `messages` list of
that node), and `toolReads` scripts the value of `self.server_manager.tools`
(as a list of tool names) at each successive read. -/
structure Env where
  streams : List (List (List Msg))
  toolReads : List (List String)

/-- First value bound to a key in a Python dict, seen as an association
list. -/
def lookupEntry : List (String × Val) → String → Option Val
  | [], _ => none
  | (k, v) :: rest, key => if k = key then some v else lookupEntry rest key

/-- Python truthiness filter applied by `if tool_call_id:` — `None` and the
empty string are falsy. -/
def truthyId : Option String → Option String
  | some i => if i = "" then none else some i
  | none => none

/-- Text of a content block used in the `log_text` extraction:
`block.get("text", "")` for blocks whose `"text"` value is a string. -/
def blockText (entries : List (String × Val)) : String :=
  match lookupEntry entries "text" with
  | some (.vstr t) => t
  | _ => ""

/-- The `log_text` extraction performed on an AI message carrying tool calls
(lines 906-917): a string content is taken verbatim; a list content
contributes the `"text"` fields of its dict blocks whose `"type"` is
`"text"`, joined by newlines; anything else leaves the log empty. -/
def logText : Val → String
  | .vstr s => s
  | .vlist blocks =>
    String.intercalate "\n" (blocks.filterMap fun b =>
      match b with
      | .vdict es =>
        if lookupEntry es "type" = some (.vstr "text") then some (blockText es) else none
      | _ => none)
  | _ => ""

/-- Set-equality of two tool-name collections, as computed by
`{tool.name for tool in current_tools} != {tool.name for tool in self._tools}`. -/
def namesEq (a b : List String) : Bool :=
  a.all (fun x => b.contains x) && b.all (fun x => a.contains x)

/-- `pending_tool_calls[k] = a` on a Python dict kept as an insertion-ordered
association list: overwrite in place if the key exists, append otherwise. -/
def pendingInsert (p : List (String × Action)) (k : String) (a : Action) :
    List (String × Action) :=
  if p.any (fun kv => kv.1 = k) then
    p.map (fun kv => if kv.1 = k then (k, a) else kv)
  else
    p ++ [(k, a)]

/-- Membership test `k in pending_tool_calls`. -/
def pendingLookup : List (String × Action) → String → Option Action
  | [], _ => none
  | kv :: rest, k => if kv.1 = k then some kv.2 else pendingLookup rest k

/-- `pending_tool_calls.pop(k)`: remove the first (for a dict: the only)
entry with the given key. -/
def pendingErase : List (String × Action) → String → List (String × Action)
  | [], _ => []
  | kv :: rest, k => if kv.1 = k then rest else kv :: pendingErase rest k

/-- Bound on mid-run restarts: `max_restarts = 3` in `MCPAgent.stream`. -/
def maxRestarts : Nat := 3

/-- The transient state of one `MCPAgent.stream` invocation together with
the agent attributes the loop reads and writes.  `tools` is the name set of
`self._tools`; `executorGen` counts `self._create_agent()` rebuilds of
`self._agent_executor` since the run began; `toolsUsed` is the
session-scoped `self.tools_used_names` list.  The fields from `emitted` on
are ghost instrumentation. -/
structure StState where
  tools : List String
  executorGen : Nat
  restartCount : Nat
  invocations : Nat
  readCount : Nat
  accumulated : List Msg
  pending : List (String × Action)
  events : List Event
  finalOutput : Option Val
  toolsUsed : List String
  emitted : List Msg
  processedMsgs : List Msg
  toolCallsSeen : List ToolCall
  newToolNames : List String
  restartSnaps : List Snap

/-- Body of `for tool_call in message.tool_calls:` — build the `AgentAction`,
register it under its call id when the id is truthy, and append the tool
name to `self.tools_used_names`. -/
def processCall (lg : String) (s : StState) (tc : ToolCall) : StState :=
  let action : Action := ⟨tc.name, tc.args, lg⟩
  let s :=
    match truthyId tc.id with
    | some i => { s with pending := pendingInsert s.pending i action }
    | none => s
  { s with
    toolsUsed := s.toolsUsed ++ [tc.name]
    toolCallsSeen := s.toolCallsSeen ++ [tc]
    newToolNames := s.newToolNames ++ [tc.name] }

/-- Resolution of a tool-result message against `pending_tool_calls`
(lines 941-947): when the message's `tool_call_id` is truthy and registered,
pop the pending action and yield the `(action, str(observation))` pair. -/
def resolveTool (s : StState) (m : Msg) : StState :=
  match truthyId m.toolCallId with
  | some i =>
    match pendingLookup s.pending i with
    | some a =>
      { s with
        pending := pendingErase s.pending i
        events := s.events ++ [⟨i, a, m.content⟩] }
    | none => s
  | none => s

/-- The safe-restart-point check run right after a tool result (lines
955-979): only in server-manager mode, read `self.server_manager.tools` and,
when the name set differs from `self._tools`, install the new tools, rebuild
the system message and the executor, bump the restart counter, and signal
the restart. -/
def safePoint (sm : Bool) (env : Env) (s : StState) (m : Msg) : StState × Bool :=
  if sm then
    let cur := env.toolReads.getD s.readCount []
    let s1 := { s with readCount := s.readCount + 1 }
    if namesEq cur s.tools then (s1, false)
    else
      ({ s1 with
          tools := cur
          executorGen := s.executorGen + 1
          restartCount := s.restartCount + 1
          restartSnaps := s.restartSnaps ++ [⟨s.accumulated, m.role⟩] }, true)
  else (s, false)

/-- Body of `for message in messages:` in `MCPAgent.stream` (lines 902-984).
The three branches are mutually exclusive by role: an AI message with tool
calls registers its calls; a tool message is resolved by `resolveTool` and
then passes the `safePoint` check (the returned flag models
`should_restart`, i.e. the cascaded `break`); an AI message without tool
calls becomes the candidate final answer. -/
def processMsg (sm : Bool) (env : Env) (s : StState) (m : Msg) : StState × Bool :=
  let s := { s with processedMsgs := s.processedMsgs ++ [m] }
  match m.role, m.toolCalls with
  | .ai, [] => ({ s with finalOutput := some m.content }, false)
  | .ai, tc :: tcs => ((tc :: tcs).foldl (processCall (logText m.content)) s, false)
  | .human, _ => (s, false)
  | .tool, _ => safePoint sm env (resolveTool s m) m

/-- The message loop over one node output, with the `break` on
`should_restart`. -/
def processMsgs (sm : Bool) (env : Env) (s : StState) : List Msg → StState × Bool
  | [] => (s, false)
  | m :: rest =>
    match processMsg sm env s m with
    | (s1, true) => (s1, true)
    | (s1, false) => processMsgs sm env s1 rest

/-- `for msg in messages: if msg not in accumulated_messages:
accumulated_messages.append(msg)` — the dedup-append loop run over a node
output before its messages are processed. -/
def accumulate (acc : List Msg) : List Msg → List Msg
  | [] => acc
  | m :: rest => accumulate (if m ∈ acc then acc else acc ++ [m]) rest

/-- Handling of one node output: first the dedup-append loop over all its
messages (also recorded in the ghost `emitted` trail), then the processing
loop. -/
def processChunk (sm : Bool) (env : Env) (s : StState) (c : List Msg) : StState × Bool :=
  let s := { s with accumulated := accumulate s.accumulated c, emitted := s.emitted ++ c }
  processMsgs sm env s c

/-- Consumption of one `astream` call: node outputs in order, cut short when
a restart fires (the cascaded `break`s out of the message, node and chunk
loops). -/
def processStream (sm : Bool) (env : Env) (s : StState) :
    List (List Msg) → StState × Bool
  | [] => (s, false)
  | c :: rest =>
    match processChunk sm env s c with
    | (s1, true) => (s1, true)
    | (s1, false) => processStream sm env s1 rest

/-- The `while restart_count <= max_restarts:` loop.  Each pass invokes the
executor stream scripted for the current invocation index; the loop
continues exactly when a restart fired and `restart_count` has not passed
`max_restarts` (otherwise the code breaks out, logging the exhaustion).  The
structural `fuel` argument is only a recursion bound: started at
`maxRestarts + 1` with a zero restart counter it can never run out, because
every continuation of the loop increments `restartCount` and requires the
incremented value to stay at most `maxRestarts` (see
`runLoopF_fuel_stable`). -/
def runLoopF (sm : Bool) (env : Env) : Nat → StState → StState
  | 0, s => s
  | fuel + 1, s =>
    let stream := env.streams.getD s.invocations []
    let s0 := { s with invocations := s.invocations + 1 }
    let res := processStream sm env s0 stream
    if res.2 = true ∧ res.1.restartCount ≤ maxRestarts then runLoopF sm env fuel res.1
    else res.1

/-- The initial `accumulated_messages`: the history filtered to human and AI
messages (`isinstance(msg, HumanMessage | AIMessage)`), followed by
`HumanMessage(content=query)`. -/
def initAccum (hist : List Msg) (q : String) : List Msg :=
  hist.filter (fun m => m.role == Role.human || m.role == Role.ai) ++
    [{ role := .human, content := .vstr q, toolCalls := [], toolCallId := none }]

/-- The run state at the top of `stream` step 3, before the pre-execution
tool check: `self._tools` and `self.tools_used_names` as they stand, fresh
counters, the seeded `accumulated_messages`, an empty
`pending_tool_calls`. -/
def initState (tools0 used0 : List String) (hist : List Msg) (q : String) : StState :=
  { tools := tools0
    executorGen := 0
    restartCount := 0
    invocations := 0
    readCount := 0
    accumulated := initAccum hist q
    pending := []
    events := []
    finalOutput := none
    toolsUsed := used0
    emitted := []
    processedMsgs := []
    toolCallsSeen := []
    newToolNames := []
    restartSnaps := [] }

/-- The pre-execution tool check (lines 837-850): only in server-manager
mode, read `self.server_manager.tools`, and when the name sets differ,
update `self._tools` and rebuild the executor — without touching the restart
counter. -/
def preCheck (sm : Bool) (env : Env) (s : StState) : StState :=
  if sm then
    let cur := env.toolReads.getD s.readCount []
    let s := { s with readCount := s.readCount + 1 }
    if namesEq cur s.tools then s
    else { s with tools := cur, executorGen := s.executorGen + 1 }
  else s

/-- One whole `MCPAgent.stream(query)` execution over the scripted
environment: pre-execution tool check, then the restart loop. -/
def mcpStream (sm : Bool) (env : Env) (tools0 used0 : List String)
    (hist : List Msg) (q : String) : StState :=
  runLoopF sm env (maxRestarts + 1) (preCheck sm env (initState tools0 used0 hist q))

/-- `MCPAgent.close()` as far as agent attributes go: drop the executor and
the tool list, mark uninitialized; `tools_used_names` is never touched. -/
structure AgentShell where
  toolsUsedNames : List String
  tools : List String
  initialized : Bool
deriving DecidableEq

def close (a : AgentShell) : AgentShell :=
  { a with tools := [], initialized := false }

/-- `steps_taken` as computed by `MCPAgent._consume_and_return` after the
generator is exhausted: `len(self.tools_used_names)`. -/
def runSteps (s : StState) : Nat :=
  s.toolsUsed.length

mutual

/-- Python `repr` on content values, used only through `pyStr` for the
`str(value)` fallbacks of `_normalize_output`.  It models CPython for
strings, lists and dicts; provider objects carry their rendering in their
`rep` field.  (Its exact text is never load-bearing below; only `pyStr` of
strings and objects is.) -/
def pyRepr : Val → String
  | .vstr s => "\x27" ++ s ++ "\x27"
  | .vobj _ _ rep => rep
  | .vdict es => "\x7b" ++ dictEntriesRepr es ++ "\x7d"
  | .vlist xs => "[" ++ listEntriesRepr xs ++ "]"
termination_by structural a => a

def dictEntriesRepr : List (String × Val) → String
  | [] => ""
  | [(k, v)] => "\x27" ++ k ++ "\x27: " ++ pyRepr v
  | (k, v) :: rest => "\x27" ++ k ++ "\x27: " ++ pyRepr v ++ ", " ++ dictEntriesRepr rest
termination_by structural a => a

def listEntriesRepr : List Val → String
  | [] => ""
  | [v] => pyRepr v
  | v :: rest => pyRepr v ++ ", " ++ listEntriesRepr rest
termination_by structural a => a

end

/-- Python `str` on content values: strings render as themselves, containers
as their `repr`, provider objects as their fixed rendering. -/
def pyStr : Val → String
  | .vstr s => s
  | .vobj _ _ rep => rep
  | .vdict es => pyRepr (.vdict es)
  | .vlist xs => pyRepr (.vlist xs)

mutual

/-- `MCPAgent._normalize_output` (lines 234-268), translated branch by
branch.  A string is returned unchanged; a value with a `.content`
attribute recurses on it (a provider object with no `.content` falls
through `isinstance(value, list)` to `str(value)`, its rendering); a dict
has no `.content` *attribute*, so it also falls to `str(value)`; a list is
joined from its per-item normalizations `normPart`. -/
def normalize_output : Val → String
  | .vstr s => s
  | .vobj _ (some c) _ => normalize_output c
  | .vobj _ none rep => rep
  | .vdict es => pyStr (.vdict es)
  | .vlist items => normParts items
termination_by structural a => a

/-- `"".join(parts)` over the per-item normalizations of a list. -/
def normParts : List Val → String
  | [] => ""
  | item :: rest => normPart item ++ normParts rest
termination_by structural a => a

/-- The per-item handling inside the list branch of `_normalize_output`:
a dict item contributes its string `"text"` entry if present, else the
normalization of its `"content"` entry if that key exists, else
`str(item)`; a non-dict item contributes its string `.text` attribute if
present, else the normalization of `getattr(item, "content", item)` — which
for an object with no `.content` is one more pass over the object itself,
i.e. its rendering, and for a string or nested list is the value's own
normalization. -/
def normPart : Val → String
  | .vstr s => s
  | .vlist xs => normParts xs
  | .vdict es =>
    match lookupEntry es "text" with
    | some (.vstr s) => s
    | _ =>
      match dictContentNorm es with
      | some t => t
      | none => pyStr (.vdict es)
  | .vobj (some (.vstr s)) _ _ => s
  | .vobj _ (some c) _ => normalize_output c
  | .vobj _ none rep => rep
termination_by structural a => a

/-- `normalize_output item.entries["content"]` when the `"content"` key
exists: the scan and the recursive normalization fused so the recursion
stays structural. -/
def dictContentNorm : List (String × Val) → Option String
  | [] => none
  | (k, v) :: rest => if k = "content" then some (normalize_output v) else dictContentNorm rest
termination_by structural a => a

end

/-- The terminal value yielded by `stream` step 6 on the plain-text path:
`yield final_output or "No output generated"` — Python `or` replaces both
`None` and the empty string by the sentinel.  (`final_output` in the code
is the already-normalized string; the state stores the candidate's raw
content, of which the yielded string is `_normalize_output`.) -/
def terminalOf (s : StState) : String :=
  match s.finalOutput with
  | none => "No output generated"
  | some v => if normalize_output v = "" then "No output generated" else normalize_output v

/-- A candidate final answer: `isinstance(message, AIMessage) and not
getattr(message, "tool_calls", None)`. -/
def isCandidate (m : Msg) : Bool :=
  m.role == Role.ai && m.toolCalls.isEmpty

/-- The last candidate final-answer message among the messages a run
processed. -/
def lastCandidate (msgs : List Msg) : Option Msg :=
  (msgs.filter isCandidate).getLast?

/-- The pydantic default recorded on a `FieldInfo`: `PydanticUndefined` when
the field declares no default (pydantic's required fields), an explicit
Python `None` default, or some other explicit default value. -/
inductive PyDefault where
  | undefined
  | none
  | value
deriving DecidableEq

/-- One entry of `output_schema.model_fields`. -/
structure FieldSpec where
  name : String
  default : PyDefault
deriving DecidableEq

/-- `required` as computed by `_attempt_structured_output` (line 714):
`not hasattr(field_info, "default") or field_info.default is None`.  A
pydantic `FieldInfo` always has the `default` attribute, so this reduces to
`field_info.default is None`. -/
def requiredByCode (f : FieldSpec) : Bool :=
  f.default == PyDefault.none

/-- Pydantic's own notion of a required field: one declared without a
default, i.e. whose `FieldInfo.default` is `PydanticUndefined`. -/
def requiredByPydantic (f : FieldSpec) : Bool :=
  f.default == PyDefault.undefined

/-- The shape of one attribute of the structured result object, as far as
the validation loop inspects it: Python `None`, a string, a list (only its
length is inspected), or any other value. -/
inductive FieldVal where
  | vnone
  | fstr (s : String)
  | flist (len : Nat)
  | fother
deriving DecidableEq

/-- `getattr(structured_result, field_name, None)`. -/
def getField : List (String × FieldVal) → String → FieldVal
  | [], _ => .vnone
  | (k, v) :: rest, name => if k = name then v else getField rest name

/-- ASCII whitespace, the characters Python `str.strip()` removes from the
strings that occur here. -/
def isSpaceChar (c : Char) : Bool :=
  c = ' ' || c = '\t' || c = '\n' || c = '\x0d'

/-- Python `value.strip()` on the character list of a string. -/
def pyStrip (s : String) : String :=
  ⟨((s.data.dropWhile isSpaceChar).reverse.dropWhile isSpaceChar).reverse⟩

/-- The per-field validation of `_attempt_structured_output` (lines
713-720): only fields the code computes as required are checked; `None` and
blank strings (`not value.strip()`) raise "missing or empty", empty lists
raise "empty list". -/
def checkField (r : List (String × FieldVal)) (f : FieldSpec) : Except String Unit :=
  if requiredByCode f then
    match getField r f.name with
    | .vnone => .error ("Required field \x27" ++ f.name ++ "\x27 is missing or empty")
    | .fstr s =>
      if pyStrip s = "" then
        .error ("Required field \x27" ++ f.name ++ "\x27 is missing or empty")
      else .ok ()
    | .flist len =>
      if len = 0 then .error ("Required field \x27" ++ f.name ++ "\x27 is an empty list")
      else .ok ()
    | .fother => .ok ()
  else .ok ()

/-- The validation loop over `output_schema.model_fields`: the first failing
field raises, success returns the structured result unchanged. -/
def validateFields : List FieldSpec → List (String × FieldVal) → Except String Unit
  | [], _ => .ok ()
  | f :: rest, r =>
    match checkField r f with
    | .error e => .error e
    | .ok _ => validateFields rest r

/-- Step 5 of `stream` around `_attempt_structured_output`: a validation
error is re-raised as `RuntimeError("Failed to generate structured output:
...")`; success yields the structured object. -/
def structuredOutcome (v : Except String Unit) : Except String Unit :=
  match v with
  | .error e => .error ("Failed to generate structured output: " ++ e)
  | .ok u => .ok u

/-- The `'='*60` separator line used by `_generate_reasoning_plan`. -/
def eqLine : String :=
  String.mk (List.replicate 60 (Char.ofNat 61))

/-- One line of the enumerated tool listing:
`f"- {tool.name} (Server: {server_name}): {tool.description}"`.  A tool is
given as (name, origin server, description). -/
def toolInfoLine (t : String × String × String) : String :=
  "- " ++ t.1 ++ " (Server: " ++ t.2.1 ++ "): " ++ t.2.2

/-- `"\n".join(tool_info_list) if tool_info_list else "No tools available."`. -/
def toolInfoString (tools : List (String × String × String)) : String :=
  match tools with
  | [] => "No tools available."
  | _ => String.intercalate "\n" (tools.map toolInfoLine)

/-- `MCPAgent._generate_reasoning_plan` on an already-initialized agent,
with the single `self.llm.ainvoke` call scripted as `llmResult`: on success
the normalized response is framed by separator lines; on any exception the
`except` branch returns the fallback plan built from the query and the tool
listing, annotated that automatic planning failed. -/
def genReasoningPlan (query : String) (tools : List (String × String × String))
    (llmResult : Except String Val) : String :=
  let ti := toolInfoString tools
  match llmResult with
  | .ok resp =>
    "\n" ++ eqLine ++ "\nREASONING PLAN\n" ++ eqLine ++ "\n" ++
      normalize_output resp ++ "\n" ++ eqLine ++ "\n"
  | .error _ =>
    "\n" ++ eqLine ++ "\nREASONING PLAN\n" ++ eqLine ++ "\nQuery: " ++ query ++
      "\n\nAvailable Tools:\n" ++ ti ++
      "\n\nNote: Automatic planning failed. The agent will proceed with available tools.\n" ++
      eqLine ++ "\n"

/-- Substring containment on strings, stated on their character lists. -/
def strSub (needle hay : String) : Prop :=
  needle.data <:+: hay.data

/-- The call identifiers of the events yielded so far. -/
def eventIds (s : StState) : List String :=
  s.events.map Event.callId

/-- The keys currently registered in `pending_tool_calls`. -/
def pendingKeys (s : StState) : List String :=
  s.pending.map Prod.fst

/-- The call identifiers a message can register in `pending_tool_calls` when
it is processed: the truthy ids of the tool calls of an AI message. -/
def registrableIds (m : Msg) : List String :=
  match m.role with
  | .ai => m.toolCalls.filterMap (fun tc => truthyId tc.id)
  | _ => []

/-- All registrable call identifiers of one node output. -/
def chunkCallIds (c : List Msg) : List String :=
  (c.map registrableIds).flatten

/-- All registrable call identifiers of one executor stream. -/
def streamCallIds (st : List (List Msg)) : List String :=
  (st.map chunkCallIds).flatten

/-- All registrable call identifiers of the streams from invocation `k`
on. -/
def envCallIdsFrom (env : Env) (k : Nat) : List String :=
  ((env.streams.drop k).map streamCallIds).flatten

/-- Every registrable call identifier the scripted world can ever emit.  The
data model declares call identifiers unique within a run; this is that
hypothesis. -/
def allCallIds (env : Env) : List String :=
  envCallIdsFrom env 0

/-- A bare tool-result message (no registered call id), enough to reach the
safe restart point. -/
def toolPing : Msg :=
  { role := .tool, content := .vstr "ok", toolCalls := [], toolCallId := none }

/-- A scripted world in which every one of four successive executor streams
delivers a tool result, and every read of `server_manager.tools` reports a
tool set different from the previous one: each stream therefore triggers a
restart at its safe point, the fourth one exhausting the bound. -/
def envRestarts : Env :=
  { streams := [[[toolPing]], [[toolPing]], [[toolPing]], [[toolPing]]]
    toolReads := [["t0"], ["t1"], ["t2"], ["t3"], ["t4"]] }

/-- An assistant message with no tool calls and plain text content. -/
def aiText (t : String) : Msg :=
  { role := .ai, content := .vstr t, toolCalls := [], toolCallId := none }

/-- A world whose single executor stream re-emits a structurally identical
assistant message in a second step. -/
def envDup : Env :=
  { streams := [[[aiText "dup"], [aiText "dup"]]], toolReads := [] }

/-- A world whose single executor stream produces one assistant message with
empty text as the final answer. -/
def envEmptyFinal : Env :=
  { streams := [[[aiText ""]]], toolReads := [] }

/-- An assistant message issuing one tool call. -/
def aiCall (cid : String) : Msg :=
  { role := .ai, content := .vstr "calling"
    toolCalls := [⟨"add", "(10, 20)", some cid⟩], toolCallId := none }

/-- The tool result answering `aiCall cid`. -/
def toolAnswer (cid : String) : Msg :=
  { role := .tool, content := .vstr "30", toolCalls := [], toolCallId := some cid }

/-- A well-formed world with one tool invocation, its result, and a final
answer, where the tool set changes at the safe point so that exactly one
restart fires. -/
def envOneRestart : Env :=
  { streams := [[[aiCall "c1"], [toolAnswer "c1"]], [[aiText "done"]]]
    toolReads := [["a"], ["b"], ["b"]] }

/-- Does a node output contain a tool-result message?  Only while such a
message is processed can the safe restart point be reached. -/
def hasToolMsg (c : List Msg) : Bool :=
  c.any (fun m => m.role == Role.tool)

/-- The call identifiers answered by the tool-result messages of a message
list: the truthy `tool_call_id` of each tool message. -/
def resultIds (c : List Msg) : List String :=
  c.filterMap (fun m =>
    match m.role with
    | .tool => truthyId m.toolCallId
    | _ => none)

/-- Every tool invocation emitted in `acc` already has a matching tool
result in `acc`: each truthy call id carried by the tool calls of an AI
message is also the truthy `tool_call_id` of some tool message. -/
def pairComplete (acc : List Msg) : Prop :=
  ∀ i ∈ chunkCallIds acc, i ∈ resultIds acc

/-- Executable form of `pairComplete`. -/
def pairCompleteb (acc : List Msg) : Bool :=
  (chunkCallIds acc).all (fun i => (resultIds acc).contains i)

/-- Well-formedness of one executor stream, the LangGraph contract the
restart design relies on: a chunk carrying tool-result messages is the
output of the tools node, which answers every invocation issued so far, so
when it arrives the stream's messages so far are pairing-complete.  `done`
is the flattening of the chunks already emitted. -/
def streamWFAux (done : List Msg) : List (List Msg) → Bool
  | [] => true
  | c :: rest =>
    ((!hasToolMsg c) || pairCompleteb (done ++ c)) && streamWFAux (done ++ c) rest

def streamWF (st : List (List Msg)) : Bool :=
  streamWFAux [] st

/-- Every restart recorded so far fired right after a tool-result message
was processed, at a pairing-complete accumulated message list. -/
def GoodSnaps (s : StState) : Prop :=
  ∀ sp ∈ s.restartSnaps, sp.lastRole = Role.tool ∧ pairComplete sp.acc

section Lemmas

variable {env : Env}

theorem strData_append (a b : String) : (a ++ b).data = a.data ++ b.data := rfl

theorem processCall_eq (lg : String) (s : StState) (tc : ToolCall) :
    processCall lg s tc =
      { s with
        pending :=
          match truthyId tc.id with
          | some i => pendingInsert s.pending i ⟨tc.name, tc.args, lg⟩
          | none => s.pending
        toolsUsed := s.toolsUsed ++ [tc.name]
        toolCallsSeen := s.toolCallsSeen ++ [tc]
        newToolNames := s.newToolNames ++ [tc.name] } := by
  unfold processCall
  cases truthyId tc.id <;> rfl

theorem foldl_pc_const {α : Sort u} (lg : String) (f : StState → α)
    (h : ∀ s tc, f (processCall lg s tc) = f s) :
    ∀ (calls : List ToolCall) (s : StState), f (calls.foldl (processCall lg) s) = f s := by
  intro calls
  induction calls with
  | nil => intro s; rfl
  | cons tc rest ih => intro s; rw [List.foldl_cons, ih, h]

theorem foldl_pc_append {α : Type u} (lg : String) (f : StState → List α)
    (g : ToolCall → List α) (h : ∀ s tc, f (processCall lg s tc) = f s ++ g tc) :
    ∀ (calls : List ToolCall) (s : StState),
      f (calls.foldl (processCall lg) s) = f s ++ (calls.map g).flatten := by
  intro calls
  induction calls with
  | nil => intro s; simp
  | cons tc rest ih => intro s; rw [List.foldl_cons, ih, h]; simp

theorem pc_acc (lg : String) : ∀ (s : StState) tc,
    (processCall lg s tc).accumulated = s.accumulated := by
  intro s tc; rw [processCall_eq]

theorem pc_emitted (lg : String) : ∀ (s : StState) tc,
    (processCall lg s tc).emitted = s.emitted := by
  intro s tc; rw [processCall_eq]

theorem pc_tools (lg : String) : ∀ (s : StState) tc,
    (processCall lg s tc).tools = s.tools := by
  intro s tc; rw [processCall_eq]

theorem pc_executorGen (lg : String) : ∀ (s : StState) tc,
    (processCall lg s tc).executorGen = s.executorGen := by
  intro s tc; rw [processCall_eq]

theorem pc_restartCount (lg : String) : ∀ (s : StState) tc,
    (processCall lg s tc).restartCount = s.restartCount := by
  intro s tc; rw [processCall_eq]

theorem pc_invocations (lg : String) : ∀ (s : StState) tc,
    (processCall lg s tc).invocations = s.invocations := by
  intro s tc; rw [processCall_eq]

theorem pc_readCount (lg : String) : ∀ (s : StState) tc,
    (processCall lg s tc).readCount = s.readCount := by
  intro s tc; rw [processCall_eq]

theorem pc_finalOutput (lg : String) : ∀ (s : StState) tc,
    (processCall lg s tc).finalOutput = s.finalOutput := by
  intro s tc; rw [processCall_eq]

theorem pc_events (lg : String) : ∀ (s : StState) tc,
    (processCall lg s tc).events = s.events := by
  intro s tc; rw [processCall_eq]

theorem pc_processedMsgs (lg : String) : ∀ (s : StState) tc,
    (processCall lg s tc).processedMsgs = s.processedMsgs := by
  intro s tc; rw [processCall_eq]

theorem pc_restartSnaps (lg : String) : ∀ (s : StState) tc,
    (processCall lg s tc).restartSnaps = s.restartSnaps := by
  intro s tc; rw [processCall_eq]

theorem pc_toolsUsed (lg : String) : ∀ (s : StState) tc,
    (processCall lg s tc).toolsUsed = s.toolsUsed ++ [tc.name] := by
  intro s tc; rw [processCall_eq]

theorem pc_newToolNames (lg : String) : ∀ (s : StState) tc,
    (processCall lg s tc).newToolNames = s.newToolNames ++ [tc.name] := by
  intro s tc; rw [processCall_eq]

theorem pc_toolCallsSeen (lg : String) : ∀ (s : StState) tc,
    (processCall lg s tc).toolCallsSeen = s.toolCallsSeen ++ [tc] := by
  intro s tc; rw [processCall_eq]

/-- The tool names registered while processing a message: one per tool call
of an AI message, nothing otherwise. -/
def callNames (m : Msg) : List String :=
  match m.role with
  | .ai => m.toolCalls.map ToolCall.name
  | _ => []

/-- The tool calls observed while processing a message. -/
def callsSeen (m : Msg) : List ToolCall :=
  match m.role with
  | .ai => m.toolCalls
  | _ => []

theorem flatten_map_singleton {α β : Type u} (g : α → β) :
    ∀ l : List α, (l.map fun a => [g a]).flatten = l.map g := by
  intro l; induction l <;> simp_all

theorem flatten_map_single {α : Type u} :
    ∀ l : List α, (l.map fun a => [a]).flatten = l := by
  intro l; induction l <;> simp_all

theorem resolveTool_shape (s : StState) (m : Msg) :
    ∃ pe ev, resolveTool s m = { s with pending := pe, events := ev } := by
  unfold resolveTool
  repeat' split
  all_goals exact ⟨_, _, rfl⟩

theorem safePoint_shape (sm : Bool) (env : Env) (s : StState) (m : Msg) :
    (∃ rc, safePoint sm env s m = ({ s with readCount := rc }, false)) ∨
      (∃ cur rc, safePoint sm env s m =
        ({ s with
            readCount := rc
            tools := cur
            executorGen := s.executorGen + 1
            restartCount := s.restartCount + 1
            restartSnaps := s.restartSnaps ++ [⟨s.accumulated, m.role⟩] }, true)) := by
  unfold safePoint
  cases sm with
  | false => exact Or.inl ⟨s.readCount, rfl⟩
  | true =>
    dsimp only
    cases hne : namesEq (env.toolReads.getD s.readCount []) s.tools with
    | false =>
      exact Or.inr ⟨env.toolReads.getD s.readCount [], s.readCount + 1, by simp⟩
    | true =>
      exact Or.inl ⟨s.readCount + 1, by simp⟩

theorem processMsg_tool_shape (sm : Bool) (env : Env) (s : StState) (content : Val)
    (calls : List ToolCall) (tcid : Option String) :
    ∃ pe ev rc,
      processMsg sm env s ⟨Role.tool, content, calls, tcid⟩ =
          ({ s with
              processedMsgs := s.processedMsgs ++ [⟨Role.tool, content, calls, tcid⟩]
              pending := pe
              events := ev
              readCount := rc }, false) ∨
        ∃ cur,
          processMsg sm env s ⟨Role.tool, content, calls, tcid⟩ =
            ({ s with
                processedMsgs := s.processedMsgs ++ [⟨Role.tool, content, calls, tcid⟩]
                pending := pe
                events := ev
                readCount := rc
                tools := cur
                executorGen := s.executorGen + 1
                restartCount := s.restartCount + 1
                restartSnaps := s.restartSnaps ++ [⟨s.accumulated, Role.tool⟩] }, true) := by
  obtain ⟨pe, ev, h1⟩ :=
    resolveTool_shape
      { s with processedMsgs := s.processedMsgs ++ [⟨Role.tool, content, calls, tcid⟩] }
      ⟨Role.tool, content, calls, tcid⟩
  have hpm :
      processMsg sm env s ⟨Role.tool, content, calls, tcid⟩ =
        safePoint sm env
          (resolveTool
            { s with processedMsgs := s.processedMsgs ++ [⟨Role.tool, content, calls, tcid⟩] }
            ⟨Role.tool, content, calls, tcid⟩)
          ⟨Role.tool, content, calls, tcid⟩ := rfl
  rw [h1] at hpm
  rcases safePoint_shape sm env
      { s with
        processedMsgs := s.processedMsgs ++ [⟨Role.tool, content, calls, tcid⟩]
        pending := pe
        events := ev }
      ⟨Role.tool, content, calls, tcid⟩ with ⟨rc, h2⟩ | ⟨cur, rc, h2⟩
  · exact ⟨pe, ev, rc, Or.inl (by rw [hpm, h2])⟩
  · exact ⟨pe, ev, rc, Or.inr ⟨cur, by rw [hpm, h2]⟩⟩

theorem processMsg_acc (sm : Bool) (env : Env) (s : StState) (m : Msg) :
    (processMsg sm env s m).1.accumulated = s.accumulated := by
  rcases m with ⟨role, content, calls, tcid⟩
  cases role
  case human => rfl
  case ai =>
    cases calls with
    | nil => rfl
    | cons tc tcs =>
      show ((tc :: tcs).foldl (processCall (logText content)) _).accumulated = _
      rw [foldl_pc_const _ StState.accumulated (pc_acc _)]
  case tool =>
    obtain ⟨pe, ev, rc, h | ⟨cur, h⟩⟩ := processMsg_tool_shape sm env s content calls tcid
    all_goals rw [h]

theorem processMsg_emitted (sm : Bool) (env : Env) (s : StState) (m : Msg) :
    (processMsg sm env s m).1.emitted = s.emitted := by
  rcases m with ⟨role, content, calls, tcid⟩
  cases role
  case human => rfl
  case ai =>
    cases calls with
    | nil => rfl
    | cons tc tcs =>
      show ((tc :: tcs).foldl (processCall (logText content)) _).emitted = _
      rw [foldl_pc_const _ StState.emitted (pc_emitted _)]
  case tool =>
    obtain ⟨pe, ev, rc, h | ⟨cur, h⟩⟩ := processMsg_tool_shape sm env s content calls tcid
    all_goals rw [h]

theorem processMsg_invocations (sm : Bool) (env : Env) (s : StState) (m : Msg) :
    (processMsg sm env s m).1.invocations = s.invocations := by
  rcases m with ⟨role, content, calls, tcid⟩
  cases role
  case human => rfl
  case ai =>
    cases calls with
    | nil => rfl
    | cons tc tcs =>
      show ((tc :: tcs).foldl (processCall (logText content)) _).invocations = _
      rw [foldl_pc_const _ StState.invocations (pc_invocations _)]
  case tool =>
    obtain ⟨pe, ev, rc, h | ⟨cur, h⟩⟩ := processMsg_tool_shape sm env s content calls tcid
    all_goals rw [h]

theorem processMsg_rc_true (sm : Bool) (env : Env) (s : StState) (m : Msg) :
    (processMsg sm env s m).2 = true →
      (processMsg sm env s m).1.restartCount = s.restartCount + 1 := by
  rcases m with ⟨role, content, calls, tcid⟩
  cases role
  case human => intro h; simp [processMsg] at h
  case ai =>
    cases calls with
    | nil => intro h; simp [processMsg] at h
    | cons tc tcs => intro h; simp [processMsg] at h
  case tool =>
    obtain ⟨pe, ev, rc, h | ⟨cur, h⟩⟩ := processMsg_tool_shape sm env s content calls tcid
    · rw [h]; intro hb; simp at hb
    · rw [h]; intro _; rfl

theorem processMsg_rc_false (sm : Bool) (env : Env) (s : StState) (m : Msg) :
    (processMsg sm env s m).2 = false →
      (processMsg sm env s m).1.restartCount = s.restartCount := by
  rcases m with ⟨role, content, calls, tcid⟩
  cases role
  case human => intro _; rfl
  case ai =>
    cases calls with
    | nil => intro _; rfl
    | cons tc tcs =>
      intro _
      show ((tc :: tcs).foldl (processCall (logText content)) _).restartCount = _
      rw [foldl_pc_const _ StState.restartCount (pc_restartCount _)]
  case tool =>
    obtain ⟨pe, ev, rc, h | ⟨cur, h⟩⟩ := processMsg_tool_shape sm env s content calls tcid
    · rw [h]; intro _; rfl
    · rw [h]; intro hb; simp at hb

theorem processMsg_snaps_true (sm : Bool) (env : Env) (s : StState) (m : Msg) :
    (processMsg sm env s m).2 = true →
      m.role = Role.tool ∧
        (processMsg sm env s m).1.restartSnaps =
          s.restartSnaps ++ [⟨s.accumulated, Role.tool⟩] := by
  rcases m with ⟨role, content, calls, tcid⟩
  cases role
  case human => intro h; simp [processMsg] at h
  case ai =>
    cases calls with
    | nil => intro h; simp [processMsg] at h
    | cons tc tcs => intro h; simp [processMsg] at h
  case tool =>
    obtain ⟨pe, ev, rc, h | ⟨cur, h⟩⟩ := processMsg_tool_shape sm env s content calls tcid
    · rw [h]; intro hb; simp at hb
    · rw [h]; intro _; exact ⟨rfl, rfl⟩

theorem processMsg_snaps_false (sm : Bool) (env : Env) (s : StState) (m : Msg) :
    (processMsg sm env s m).2 = false →
      (processMsg sm env s m).1.restartSnaps = s.restartSnaps := by
  rcases m with ⟨role, content, calls, tcid⟩
  cases role
  case human => intro _; rfl
  case ai =>
    cases calls with
    | nil => intro _; rfl
    | cons tc tcs =>
      intro _
      show ((tc :: tcs).foldl (processCall (logText content)) _).restartSnaps = _
      rw [foldl_pc_const _ StState.restartSnaps (pc_restartSnaps _)]
  case tool =>
    obtain ⟨pe, ev, rc, h | ⟨cur, h⟩⟩ := processMsg_tool_shape sm env s content calls tcid
    · rw [h]; intro _; rfl
    · rw [h]; intro hb; simp at hb

theorem processMsg_processed (sm : Bool) (env : Env) (s : StState) (m : Msg) :
    (processMsg sm env s m).1.processedMsgs = s.processedMsgs ++ [m] := by
  rcases m with ⟨role, content, calls, tcid⟩
  cases role
  case human => rfl
  case ai =>
    cases calls with
    | nil => rfl
    | cons tc tcs =>
      show ((tc :: tcs).foldl (processCall (logText content)) _).processedMsgs = _
      rw [foldl_pc_const _ StState.processedMsgs (pc_processedMsgs _)]
  case tool =>
    obtain ⟨pe, ev, rc, h | ⟨cur, h⟩⟩ := processMsg_tool_shape sm env s content calls tcid
    all_goals rw [h]

theorem processMsg_final (sm : Bool) (env : Env) (s : StState) (m : Msg) :
    (processMsg sm env s m).1.finalOutput =
      if isCandidate m then some m.content else s.finalOutput := by
  rcases m with ⟨role, content, calls, tcid⟩
  cases role
  case human => simp [isCandidate]; rfl
  case ai =>
    cases calls with
    | nil => simp [isCandidate]; rfl
    | cons tc tcs =>
      simp [isCandidate]
      show ((tc :: tcs).foldl (processCall (logText content)) _).finalOutput = _
      rw [foldl_pc_const _ StState.finalOutput (pc_finalOutput _)]
  case tool =>
    simp only [isCandidate]
    obtain ⟨pe, ev, rc, h | ⟨cur, h⟩⟩ := processMsg_tool_shape sm env s content calls tcid
    all_goals rw [h]
    all_goals simp

theorem processMsg_toolsUsed (sm : Bool) (env : Env) (s : StState) (m : Msg) :
    (processMsg sm env s m).1.toolsUsed = s.toolsUsed ++ callNames m := by
  rcases m with ⟨role, content, calls, tcid⟩
  cases role
  case human => simp [callNames]; rfl
  case ai =>
    cases calls with
    | nil => simp [callNames]; rfl
    | cons tc tcs =>
      show ((tc :: tcs).foldl (processCall (logText content)) _).toolsUsed = _
      rw [foldl_pc_append _ StState.toolsUsed (fun tc => [tc.name]) (pc_toolsUsed _),
        flatten_map_singleton]
      rfl
  case tool =>
    simp only [callNames]
    obtain ⟨pe, ev, rc, h | ⟨cur, h⟩⟩ := processMsg_tool_shape sm env s content calls tcid
    all_goals rw [h]
    all_goals simp

theorem processMsg_newToolNames (sm : Bool) (env : Env) (s : StState) (m : Msg) :
    (processMsg sm env s m).1.newToolNames = s.newToolNames ++ callNames m := by
  rcases m with ⟨role, content, calls, tcid⟩
  cases role
  case human => simp [callNames]; rfl
  case ai =>
    cases calls with
    | nil => simp [callNames]; rfl
    | cons tc tcs =>
      show ((tc :: tcs).foldl (processCall (logText content)) _).newToolNames = _
      rw [foldl_pc_append _ StState.newToolNames (fun tc => [tc.name]) (pc_newToolNames _),
        flatten_map_singleton]
      rfl
  case tool =>
    simp only [callNames]
    obtain ⟨pe, ev, rc, h | ⟨cur, h⟩⟩ := processMsg_tool_shape sm env s content calls tcid
    all_goals rw [h]
    all_goals simp

theorem processMsg_toolCallsSeen (sm : Bool) (env : Env) (s : StState) (m : Msg) :
    (processMsg sm env s m).1.toolCallsSeen = s.toolCallsSeen ++ callsSeen m := by
  rcases m with ⟨role, content, calls, tcid⟩
  cases role
  case human => simp [callsSeen]; rfl
  case ai =>
    cases calls with
    | nil => simp [callsSeen]; rfl
    | cons tc tcs =>
      show ((tc :: tcs).foldl (processCall (logText content)) _).toolCallsSeen = _
      rw [foldl_pc_append _ StState.toolCallsSeen (fun tc => [tc]) (pc_toolCallsSeen _)]
      simp [callsSeen, flatten_map_single]
  case tool =>
    simp only [callsSeen]
    obtain ⟨pe, ev, rc, h | ⟨cur, h⟩⟩ := processMsg_tool_shape sm env s content calls tcid
    all_goals rw [h]
    all_goals simp

theorem pmsgs_const (sm : Bool) (env : Env) {α : Sort u} (f : StState → α)
    (hf : ∀ s m, f (processMsg sm env s m).1 = f s) :
    ∀ (msgs : List Msg) (s : StState), f (processMsgs sm env s msgs).1 = f s := by
  intro msgs
  induction msgs with
  | nil => intro s; rfl
  | cons m rest ih =>
    intro s
    simp only [processMsgs]
    rcases hpm : processMsg sm env s m with ⟨s1, b⟩
    have h1 : f s1 = f s := by have h2 := hf s m; rwa [hpm] at h2
    cases b
    · dsimp only
      rw [ih s1, h1]
    · dsimp only
      exact h1

theorem pchunk_const (sm : Bool) (env : Env) {α : Sort u} (f : StState → α)
    (hf : ∀ s m, f (processMsg sm env s m).1 = f s)
    (hae : ∀ (s : StState) a e, f { s with accumulated := a, emitted := e } = f s) :
    ∀ (c : List Msg) (s : StState), f (processChunk sm env s c).1 = f s := by
  intro c s
  show f (processMsgs sm env _ c).1 = f s
  rw [pmsgs_const sm env f hf, hae]

theorem pstream_const (sm : Bool) (env : Env) {α : Sort u} (f : StState → α)
    (hf : ∀ s m, f (processMsg sm env s m).1 = f s)
    (hae : ∀ (s : StState) a e, f { s with accumulated := a, emitted := e } = f s) :
    ∀ (cs : List (List Msg)) (s : StState), f (processStream sm env s cs).1 = f s := by
  intro cs
  induction cs with
  | nil => intro s; rfl
  | cons c rest ih =>
    intro s
    simp only [processStream]
    rcases hpc : processChunk sm env s c with ⟨s1, b⟩
    have h1 : f s1 = f s := by
      have h2 := pchunk_const sm env f hf hae c s; rwa [hpc] at h2
    cases b
    · dsimp only
      rw [ih s1, h1]
    · dsimp only
      exact h1

theorem processStream_invocations (sm : Bool) (env : Env) (cs : List (List Msg))
    (s : StState) : (processStream sm env s cs).1.invocations = s.invocations :=
  pstream_const sm env StState.invocations (processMsg_invocations sm env)
    (fun _ _ _ => rfl) cs s

theorem processMsg_false_snd (env : Env) (s : StState) (m : Msg) :
    (processMsg false env s m).2 = false := by
  rcases m with ⟨role, content, calls, tcid⟩
  cases role
  case human => rfl
  case ai => cases calls <;> rfl
  case tool => rfl

theorem pmsgs_false_snd (env : Env) :
    ∀ (msgs : List Msg) (s : StState), (processMsgs false env s msgs).2 = false := by
  intro msgs
  induction msgs with
  | nil => intro s; rfl
  | cons m rest ih =>
    intro s
    simp only [processMsgs]
    rcases hpm : processMsg false env s m with ⟨s1, b⟩
    have hb : b = false := by have h2 := processMsg_false_snd env s m; rwa [hpm] at h2
    subst hb
    exact ih s1

theorem pstream_false_snd (env : Env) :
    ∀ (cs : List (List Msg)) (s : StState), (processStream false env s cs).2 = false := by
  intro cs
  induction cs with
  | nil => intro s; rfl
  | cons c rest ih =>
    intro s
    simp only [processStream]
    rcases hpc : processChunk false env s c with ⟨s1, b⟩
    have hb : b = false := by
      have h2 : (processChunk false env s c).2 = false := pmsgs_false_snd env c _
      rwa [hpc] at h2
    subst hb
    exact ih s1

theorem processMsg_false_tools (env : Env) (s : StState) (m : Msg) :
    (processMsg false env s m).1.tools = s.tools := by
  rcases m with ⟨role, content, calls, tcid⟩
  cases role
  case human => rfl
  case ai =>
    cases calls with
    | nil => rfl
    | cons tc tcs =>
      show ((tc :: tcs).foldl (processCall (logText content)) _).tools = _
      rw [foldl_pc_const _ StState.tools (pc_tools _)]
  case tool =>
    show (resolveTool _ _).tools = s.tools
    obtain ⟨pe, ev, h⟩ := resolveTool_shape _ _
    rw [h]

theorem processMsg_false_executorGen (env : Env) (s : StState) (m : Msg) :
    (processMsg false env s m).1.executorGen = s.executorGen := by
  rcases m with ⟨role, content, calls, tcid⟩
  cases role
  case human => rfl
  case ai =>
    cases calls with
    | nil => rfl
    | cons tc tcs =>
      show ((tc :: tcs).foldl (processCall (logText content)) _).executorGen = _
      rw [foldl_pc_const _ StState.executorGen (pc_executorGen _)]
  case tool =>
    show (resolveTool _ _).executorGen = s.executorGen
    obtain ⟨pe, ev, h⟩ := resolveTool_shape _ _
    rw [h]

theorem processMsg_false_restartCount (env : Env) (s : StState) (m : Msg) :
    (processMsg false env s m).1.restartCount = s.restartCount := by
  rcases m with ⟨role, content, calls, tcid⟩
  cases role
  case human => rfl
  case ai =>
    cases calls with
    | nil => rfl
    | cons tc tcs =>
      show ((tc :: tcs).foldl (processCall (logText content)) _).restartCount = _
      rw [foldl_pc_const _ StState.restartCount (pc_restartCount _)]
  case tool =>
    show (resolveTool _ _).restartCount = s.restartCount
    obtain ⟨pe, ev, h⟩ := resolveTool_shape _ _
    rw [h]

theorem processMsg_false_readCount (env : Env) (s : StState) (m : Msg) :
    (processMsg false env s m).1.readCount = s.readCount := by
  rcases m with ⟨role, content, calls, tcid⟩
  cases role
  case human => rfl
  case ai =>
    cases calls with
    | nil => rfl
    | cons tc tcs =>
      show ((tc :: tcs).foldl (processCall (logText content)) _).readCount = _
      rw [foldl_pc_const _ StState.readCount (pc_readCount _)]
  case tool =>
    show (resolveTool _ _).readCount = s.readCount
    obtain ⟨pe, ev, h⟩ := resolveTool_shape _ _
    rw [h]

theorem runLoopF_false (env : Env) :
    ∀ (fuel : Nat) (s : StState), 1 ≤ fuel →
      (runLoopF false env fuel s).tools = s.tools ∧
      (runLoopF false env fuel s).executorGen = s.executorGen ∧
      (runLoopF false env fuel s).restartCount = s.restartCount ∧
      (runLoopF false env fuel s).readCount = s.readCount ∧
      (runLoopF false env fuel s).invocations = s.invocations + 1 := by
  intro fuel s hfuel
  cases fuel with
  | zero => omega
  | succ n =>
    simp only [runLoopF]
    have hsnd :=
      pstream_false_snd env (env.streams.getD s.invocations [])
        { s with invocations := s.invocations + 1 }
    rw [if_neg (fun hc => by rw [hsnd] at hc; simp at hc)]
    refine ⟨?_, ?_, ?_, ?_, ?_⟩
    · exact pstream_const false env StState.tools (processMsg_false_tools env)
        (fun _ _ _ => rfl) _ _
    · exact pstream_const false env StState.executorGen (processMsg_false_executorGen env)
        (fun _ _ _ => rfl) _ _
    · exact pstream_const false env StState.restartCount (processMsg_false_restartCount env)
        (fun _ _ _ => rfl) _ _
    · exact pstream_const false env StState.readCount (processMsg_false_readCount env)
        (fun _ _ _ => rfl) _ _
    · exact processStream_invocations false env _ _

theorem pmsgs_rc (sm : Bool) (env : Env) :
    ∀ (msgs : List Msg) (s : StState),
      ((processMsgs sm env s msgs).2 = true →
        (processMsgs sm env s msgs).1.restartCount = s.restartCount + 1) ∧
      ((processMsgs sm env s msgs).2 = false →
        (processMsgs sm env s msgs).1.restartCount = s.restartCount) := by
  intro msgs
  induction msgs with
  | nil => intro s; exact ⟨fun h => by simp [processMsgs] at h, fun _ => rfl⟩
  | cons m rest ih =>
    intro s
    simp only [processMsgs]
    rcases hpm : processMsg sm env s m with ⟨s1, b⟩
    cases b
    · dsimp only
      have h1 : s1.restartCount = s.restartCount := by
        have h2 := processMsg_rc_false sm env s m
        rw [hpm] at h2
        exact h2 rfl
      refine ⟨fun ht => ?_, fun hf => ?_⟩
      · rw [(ih s1).1 ht, h1]
      · rw [(ih s1).2 hf, h1]
    · dsimp only
      have h1 : s1.restartCount = s.restartCount + 1 := by
        have h2 := processMsg_rc_true sm env s m
        rw [hpm] at h2
        exact h2 rfl
      exact ⟨fun _ => h1, fun h => by simp at h⟩

theorem pchunk_rc (sm : Bool) (env : Env) (c : List Msg) (s : StState) :
    ((processChunk sm env s c).2 = true →
      (processChunk sm env s c).1.restartCount = s.restartCount + 1) ∧
    ((processChunk sm env s c).2 = false →
      (processChunk sm env s c).1.restartCount = s.restartCount) :=
  pmsgs_rc sm env c _

theorem pstream_rc (sm : Bool) (env : Env) :
    ∀ (cs : List (List Msg)) (s : StState),
      ((processStream sm env s cs).2 = true →
        (processStream sm env s cs).1.restartCount = s.restartCount + 1) ∧
      ((processStream sm env s cs).2 = false →
        (processStream sm env s cs).1.restartCount = s.restartCount) := by
  intro cs
  induction cs with
  | nil => intro s; exact ⟨fun h => by simp [processStream] at h, fun _ => rfl⟩
  | cons c rest ih =>
    intro s
    simp only [processStream]
    rcases hpc : processChunk sm env s c with ⟨s1, b⟩
    cases b
    · dsimp only
      have h1 : s1.restartCount = s.restartCount := by
        have h2 := (pchunk_rc sm env c s).2
        rw [hpc] at h2
        exact h2 rfl
      refine ⟨fun ht => ?_, fun hf => ?_⟩
      · rw [(ih s1).1 ht, h1]
      · rw [(ih s1).2 hf, h1]
    · dsimp only
      have h1 : s1.restartCount = s.restartCount + 1 := by
        have h2 := (pchunk_rc sm env c s).1
        rw [hpc] at h2
        exact h2 rfl
      exact ⟨fun _ => h1, fun h => by simp at h⟩

theorem runLoopF_rc_le (sm : Bool) (env : Env) :
    ∀ (fuel : Nat) (s : StState),
      (runLoopF sm env fuel s).restartCount ≤ s.restartCount + fuel := by
  intro fuel
  induction fuel with
  | zero => intro s; simp [runLoopF]
  | succ n ih =>
    intro s
    simp only [runLoopF]
    rcases hps : processStream sm env { s with invocations := s.invocations + 1 }
        (env.streams.getD s.invocations []) with ⟨s1, b⟩
    cases b
    · rw [if_neg (by simp)]
      dsimp only
      have h1 : s1.restartCount = s.restartCount := by
        have h2 := (pstream_rc sm env (env.streams.getD s.invocations [])
          { s with invocations := s.invocations + 1 }).2
        rw [hps] at h2
        exact h2 rfl
      omega
    · have h1 : s1.restartCount = s.restartCount + 1 := by
        have h2 := (pstream_rc sm env (env.streams.getD s.invocations [])
          { s with invocations := s.invocations + 1 }).1
        rw [hps] at h2
        exact h2 rfl
      by_cases hle : s1.restartCount ≤ maxRestarts
      · rw [if_pos ⟨rfl, hle⟩]
        dsimp only
        have h3 := ih s1
        omega
      · rw [if_neg (fun hc => hle hc.2)]
        dsimp only
        omega

theorem runLoopF_inv_le (sm : Bool) (env : Env) :
    ∀ (fuel : Nat) (s : StState),
      (runLoopF sm env fuel s).invocations ≤ s.invocations + fuel := by
  intro fuel
  induction fuel with
  | zero => intro s; simp [runLoopF]
  | succ n ih =>
    intro s
    simp only [runLoopF]
    rcases hps : processStream sm env { s with invocations := s.invocations + 1 }
        (env.streams.getD s.invocations []) with ⟨s1, b⟩
    have h1 : s1.invocations = s.invocations + 1 := by
      have h2 := processStream_invocations sm env (env.streams.getD s.invocations [])
        { s with invocations := s.invocations + 1 }
      rw [hps] at h2
      exact h2
    cases b
    · rw [if_neg (by simp)]
      dsimp only
      omega
    · by_cases hle : s1.restartCount ≤ maxRestarts
      · rw [if_pos ⟨rfl, hle⟩]
        dsimp only
        have h3 := ih s1
        omega
      · rw [if_neg (fun hc => hle hc.2)]
        dsimp only
        omega

theorem preCheck_restartCount (sm : Bool) (env : Env) (s : StState) :
    (preCheck sm env s).restartCount = s.restartCount := by
  cases sm
  · rfl
  · unfold preCheck
    dsimp only
    cases hne : namesEq (env.toolReads.getD s.readCount []) s.tools <;> simp

theorem preCheck_invocations (sm : Bool) (env : Env) (s : StState) :
    (preCheck sm env s).invocations = s.invocations := by
  cases sm
  · rfl
  · unfold preCheck
    dsimp only
    cases hne : namesEq (env.toolReads.getD s.readCount []) s.tools <;> simp

theorem pmsgs_pres (sm : Bool) (env : Env) (P : StState → Prop)
    (hmsg : ∀ s m, P s → P (processMsg sm env s m).1) :
    ∀ (msgs : List Msg) (s : StState), P s → P (processMsgs sm env s msgs).1 := by
  intro msgs
  induction msgs with
  | nil => intro s hs; exact hs
  | cons m rest ih =>
    intro s hs
    simp only [processMsgs]
    rcases hpm : processMsg sm env s m with ⟨s1, b⟩
    have h1 : P s1 := by have h2 := hmsg s m hs; rwa [hpm] at h2
    cases b
    · exact ih s1 h1
    · exact h1

theorem pchunk_pres (sm : Bool) (env : Env) (P : StState → Prop)
    (hmsg : ∀ s m, P s → P (processMsg sm env s m).1)
    (hch : ∀ (s : StState) c,
      P s → P { s with accumulated := accumulate s.accumulated c, emitted := s.emitted ++ c }) :
    ∀ (c : List Msg) (s : StState), P s → P (processChunk sm env s c).1 := by
  intro c s hs
  show P (processMsgs sm env _ c).1
  exact pmsgs_pres sm env P hmsg c _ (hch s c hs)

theorem pstream_pres (sm : Bool) (env : Env) (P : StState → Prop)
    (hmsg : ∀ s m, P s → P (processMsg sm env s m).1)
    (hch : ∀ (s : StState) c,
      P s → P { s with accumulated := accumulate s.accumulated c, emitted := s.emitted ++ c }) :
    ∀ (cs : List (List Msg)) (s : StState), P s → P (processStream sm env s cs).1 := by
  intro cs
  induction cs with
  | nil => intro s hs; exact hs
  | cons c rest ih =>
    intro s hs
    simp only [processStream]
    rcases hpc : processChunk sm env s c with ⟨s1, b⟩
    have h1 : P s1 := by
      have h2 := pchunk_pres sm env P hmsg hch c s hs
      rwa [hpc] at h2
    cases b
    · exact ih s1 h1
    · exact h1

theorem runLoopF_pres (sm : Bool) (env : Env) (P : StState → Prop)
    (hmsg : ∀ s m, P s → P (processMsg sm env s m).1)
    (hch : ∀ (s : StState) c,
      P s → P { s with accumulated := accumulate s.accumulated c, emitted := s.emitted ++ c })
    (hinv : ∀ s : StState, P s → P { s with invocations := s.invocations + 1 }) :
    ∀ (fuel : Nat) (s : StState), P s → P (runLoopF sm env fuel s) := by
  intro fuel
  induction fuel with
  | zero => intro s hs; exact hs
  | succ n ih =>
    intro s hs
    simp only [runLoopF]
    rcases hps : processStream sm env { s with invocations := s.invocations + 1 }
        (env.streams.getD s.invocations []) with ⟨s1, b⟩
    dsimp only
    have h1 : P s1 := by
      have h2 := pstream_pres sm env P hmsg hch (env.streams.getD s.invocations []) _
        (hinv s hs)
      rwa [hps] at h2
    by_cases hcond : b = true ∧ s1.restartCount ≤ maxRestarts
    · rw [if_pos hcond]; exact ih s1 h1
    · rw [if_neg hcond]; exact h1

theorem preCheck_shape (sm : Bool) (env : Env) (s : StState) :
    ∃ t g r, preCheck sm env s = { s with tools := t, executorGen := g, readCount := r } := by
  cases sm
  · exact ⟨s.tools, s.executorGen, s.readCount, rfl⟩
  · unfold preCheck
    dsimp only
    cases hne : namesEq (env.toolReads.getD s.readCount []) s.tools
    · exact ⟨_, _, _, rfl⟩
    · exact ⟨_, _, _, rfl⟩

theorem callNames_eq (m : Msg) : callNames m = (callsSeen m).map ToolCall.name := by
  rcases m with ⟨role, content, calls, tcid⟩
  cases role <;> rfl

theorem mcpStream_pres (sm : Bool) (env : Env) (P : StState → Prop)
    (hmsg : ∀ s m, P s → P (processMsg sm env s m).1)
    (hch : ∀ (s : StState) c,
      P s → P { s with accumulated := accumulate s.accumulated c, emitted := s.emitted ++ c })
    (hinv : ∀ s : StState, P s → P { s with invocations := s.invocations + 1 })
    (hpre : ∀ (s : StState) t g r,
      P s → P { s with tools := t, executorGen := g, readCount := r })
    (tools0 used0 : List String) (hist : List Msg) (q : String)
    (hinit : P (initState tools0 used0 hist q)) :
    P (mcpStream sm env tools0 used0 hist q) := by
  unfold mcpStream
  apply runLoopF_pres sm env P hmsg hch hinv
  obtain ⟨t, g, r, hsh⟩ := preCheck_shape sm env (initState tools0 used0 hist q)
  rw [hsh]
  exact hpre _ t g r hinit

theorem accumulate_mem :
    ∀ (c acc : List Msg) (x : Msg), x ∈ accumulate acc c ↔ x ∈ acc ∨ x ∈ c := by
  intro c
  induction c with
  | nil => intro acc x; simp [accumulate]
  | cons m rest ih =>
    intro acc x
    simp only [accumulate]
    by_cases hm : m ∈ acc
    · rw [if_pos hm, ih]
      simp only [List.mem_cons]
      constructor
      · rintro (h | h)
        · exact Or.inl h
        · exact Or.inr (Or.inr h)
      · rintro (h | h | h)
        · exact Or.inl h
        · exact Or.inl (h ▸ hm)
        · exact Or.inr h
    · rw [if_neg hm, ih]
      simp only [List.mem_append, List.mem_cons, List.mem_singleton]
      tauto

theorem accumulate_nodup :
    ∀ (c acc : List Msg), acc.Nodup → (accumulate acc c).Nodup := by
  intro c
  induction c with
  | nil => intro acc h; exact h
  | cons m rest ih =>
    intro acc h
    simp only [accumulate]
    by_cases hm : m ∈ acc
    · rw [if_pos hm]; exact ih acc h
    · rw [if_neg hm]
      apply ih
      rw [List.nodup_append]
      exact ⟨h, List.nodup_singleton m, by simpa using hm⟩

theorem lastCandidate_append (p : List Msg) (m : Msg) :
    lastCandidate (p ++ [m]) = if isCandidate m then some m else lastCandidate p := by
  unfold lastCandidate
  rw [List.filter_append]
  by_cases hc : isCandidate m
  · simp [hc]
  · simp [hc]

theorem pendingInsert_keys (p : List (String × Action)) (i : String) (a : Action)
    (h : i ∉ p.map Prod.fst) :
    (pendingInsert p i a).map Prod.fst = p.map Prod.fst ++ [i] := by
  have hany : ¬(p.any (fun kv => kv.1 = i) = true) := by
    intro hany
    rw [List.any_eq_true] at hany
    obtain ⟨kv, hkv, he⟩ := hany
    exact h (List.mem_map.mpr ⟨kv, hkv, of_decide_eq_true he⟩)
  unfold pendingInsert
  rw [if_neg hany, List.map_append]
  rfl

theorem pendingErase_keys (i : String) :
    ∀ p : List (String × Action),
      (pendingErase p i).map Prod.fst = (p.map Prod.fst).erase i := by
  intro p
  induction p with
  | nil => rfl
  | cons kv rest ih =>
    by_cases hk : kv.1 = i <;> simp [pendingErase, List.erase_cons, hk, ih]

theorem pendingLookup_mem (i : String) :
    ∀ (p : List (String × Action)) (a : Action),
      pendingLookup p i = some a → i ∈ p.map Prod.fst := by
  intro p
  induction p with
  | nil => intro a h; simp [pendingLookup] at h
  | cons kv rest ih =>
    intro a h
    simp only [pendingLookup] at h
    by_cases hk : kv.1 = i
    · exact List.mem_map.mpr ⟨kv, List.mem_cons_self _ _, hk⟩
    · rw [if_neg hk] at h
      rw [List.map_cons]
      exact List.mem_cons_of_mem _ (ih a h)

theorem processCall_inv (lg : String) (s : StState) (tc : ToolCall) (fut : List String)
    (h : (eventIds s ++ pendingKeys s ++ ((truthyId tc.id).toList ++ fut)).Nodup) :
    (eventIds (processCall lg s tc) ++ pendingKeys (processCall lg s tc) ++ fut).Nodup := by
  rw [processCall_eq]
  cases htn : truthyId tc.id with
  | none =>
    rw [htn] at h
    simpa [eventIds, pendingKeys] using h
  | some i =>
    rw [htn] at h
    have hni : i ∉ s.pending.map Prod.fst := by
      have hd := (List.nodup_append.mp h).2.2
      intro hmem
      exact hd (List.mem_append.mpr (Or.inr hmem))
        (List.mem_append.mpr (Or.inl (List.mem_singleton.mpr rfl)))
    show (s.events.map Event.callId ++
        (pendingInsert s.pending i ⟨tc.name, tc.args, lg⟩).map Prod.fst ++ fut).Nodup
    rw [pendingInsert_keys _ _ _ hni]
    have h2 : (eventIds s ++ pendingKeys s ++ ([i] ++ fut)).Nodup := h
    simp only [eventIds, pendingKeys] at h2
    simpa [List.append_assoc] using h2

theorem foldlCalls_inv (lg : String) :
    ∀ (calls : List ToolCall) (s : StState) (fut : List String),
      (eventIds s ++ pendingKeys s ++
        (calls.filterMap (fun tc => truthyId tc.id) ++ fut)).Nodup →
      (eventIds (calls.foldl (processCall lg) s) ++
        pendingKeys (calls.foldl (processCall lg) s) ++ fut).Nodup := by
  intro calls
  induction calls with
  | nil => intro s fut h; simpa using h
  | cons tc rest ih =>
    intro s fut h
    rw [List.foldl_cons]
    apply ih
    apply processCall_inv
    rw [List.filterMap_cons] at h
    cases htn : truthyId tc.id with
    | none =>
      rw [htn] at h
      simpa using h
    | some i =>
      rw [htn] at h
      simpa [List.append_assoc] using h

theorem resolveTool_eq_none (s : StState) (m : Msg) (h : truthyId m.toolCallId = none) :
    resolveTool s m = s := by
  unfold resolveTool
  rw [h]

theorem resolveTool_eq_miss (s : StState) (m : Msg) (i : String)
    (h1 : truthyId m.toolCallId = some i) (h2 : pendingLookup s.pending i = none) :
    resolveTool s m = s := by
  unfold resolveTool
  rw [h1]
  simp only [h2]

theorem resolveTool_eq_hit (s : StState) (m : Msg) (i : String) (a : Action)
    (h1 : truthyId m.toolCallId = some i) (h2 : pendingLookup s.pending i = some a) :
    resolveTool s m =
      { s with
        pending := pendingErase s.pending i
        events := s.events ++ [⟨i, a, m.content⟩] } := by
  unfold resolveTool
  rw [h1]
  simp only [h2]

theorem nodup_resolve_step (ev pk fut : List String) (i : String)
    (hmem : i ∈ pk) (h : (ev ++ pk ++ fut).Nodup) :
    ((ev ++ [i]) ++ pk.erase i ++ fut).Nodup := by
  have h1 : List.Perm pk (i :: pk.erase i) := List.perm_cons_erase hmem
  have h2 : List.Perm (ev ++ pk) ((ev ++ [i]) ++ pk.erase i) := by
    have h3 := h1.append_left ev
    simpa using h3
  have hperm : List.Perm (ev ++ pk ++ fut) ((ev ++ [i]) ++ pk.erase i ++ fut) :=
    h2.append_right fut
  exact hperm.nodup_iff.mp h

theorem resolveTool_inv (s : StState) (m : Msg) (fut : List String)
    (h : (eventIds s ++ pendingKeys s ++ fut).Nodup) :
    (eventIds (resolveTool s m) ++ pendingKeys (resolveTool s m) ++ fut).Nodup := by
  cases htn : truthyId m.toolCallId with
  | none => rw [resolveTool_eq_none s m htn]; exact h
  | some i =>
    cases hpl : pendingLookup s.pending i with
    | none => rw [resolveTool_eq_miss s m i htn hpl]; exact h
    | some a =>
      rw [resolveTool_eq_hit s m i a htn hpl]
      have hmem : i ∈ s.pending.map Prod.fst := pendingLookup_mem i s.pending a hpl
      have hg := nodup_resolve_step (eventIds s) (pendingKeys s) fut i hmem h
      simpa [eventIds, pendingKeys, pendingErase_keys] using hg

theorem processMsg_inv (sm : Bool) (env : Env) (s : StState) (m : Msg) (fut : List String)
    (h : (eventIds s ++ pendingKeys s ++ (registrableIds m ++ fut)).Nodup) :
    (eventIds (processMsg sm env s m).1 ++ pendingKeys (processMsg sm env s m).1 ++
      fut).Nodup := by
  rcases m with ⟨role, content, calls, tcid⟩
  cases role
  case human => simpa [registrableIds, eventIds, pendingKeys] using h
  case ai =>
    cases calls with
    | nil => simpa [registrableIds, eventIds, pendingKeys] using h
    | cons tc tcs =>
      show (eventIds ((tc :: tcs).foldl (processCall (logText content)) _) ++
        pendingKeys ((tc :: tcs).foldl (processCall (logText content)) _) ++ fut).Nodup
      apply foldlCalls_inv
      simpa [registrableIds, eventIds, pendingKeys] using h
  case tool =>
    have h2 :
        (eventIds { s with
            processedMsgs := s.processedMsgs ++ [⟨Role.tool, content, calls, tcid⟩] } ++
          pendingKeys { s with
            processedMsgs := s.processedMsgs ++ [⟨Role.tool, content, calls, tcid⟩] } ++
          fut).Nodup := by
      simpa [registrableIds, eventIds, pendingKeys] using h
    have h3 := resolveTool_inv
      { s with processedMsgs := s.processedMsgs ++ [⟨Role.tool, content, calls, tcid⟩] }
      ⟨Role.tool, content, calls, tcid⟩ fut h2
    rcases safePoint_shape sm env
        (resolveTool
          { s with processedMsgs := s.processedMsgs ++ [⟨Role.tool, content, calls, tcid⟩] }
          ⟨Role.tool, content, calls, tcid⟩)
        ⟨Role.tool, content, calls, tcid⟩ with ⟨rc, hsp⟩ | ⟨cur, rc, hsp⟩ <;>
      rw [show processMsg sm env s ⟨Role.tool, content, calls, tcid⟩
            = safePoint sm env
                (resolveTool
                  { s with
                    processedMsgs := s.processedMsgs ++ [⟨Role.tool, content, calls, tcid⟩] }
                  ⟨Role.tool, content, calls, tcid⟩)
                ⟨Role.tool, content, calls, tcid⟩ from rfl, hsp] <;>
      simpa [eventIds, pendingKeys] using h3

theorem nodup_head_two {a b c : List String} (h : (a ++ b ++ c).Nodup) :
    a.Nodup ∧ b.Nodup := by
  constructor
  · exact ((List.sublist_append_left a b).trans
      (List.sublist_append_left (a ++ b) c)).nodup h
  · exact ((List.sublist_append_right a b).trans
      (List.sublist_append_left (a ++ b) c)).nodup h

theorem processMsgs_inv (sm : Bool) (env : Env) :
    ∀ (msgs : List Msg) (s : StState) (fut : List String),
      (eventIds s ++ pendingKeys s ++ (chunkCallIds msgs ++ fut)).Nodup →
      (eventIds (processMsgs sm env s msgs).1 ++
        pendingKeys (processMsgs sm env s msgs).1 ++ fut).Nodup := by
  intro msgs
  induction msgs with
  | nil => intro s fut h; simpa [chunkCallIds] using h
  | cons m rest ih =>
    intro s fut h
    simp only [processMsgs]
    rcases hpm : processMsg sm env s m with ⟨s1, b⟩
    have hstep : (eventIds s1 ++ pendingKeys s1 ++ (chunkCallIds rest ++ fut)).Nodup := by
      have h2 := processMsg_inv sm env s m (chunkCallIds rest ++ fut)
        (by simpa [chunkCallIds, List.append_assoc] using h)
      rwa [hpm] at h2
    cases b
    · exact ih s1 fut hstep
    · dsimp only
      have hsub : List.Sublist (eventIds s1 ++ pendingKeys s1 ++ fut)
          (eventIds s1 ++ pendingKeys s1 ++ (chunkCallIds rest ++ fut)) :=
        List.Sublist.append_left (List.sublist_append_right _ _) _
      exact hsub.nodup hstep

theorem processChunk_inv (sm : Bool) (env : Env) (c : List Msg) (s : StState)
    (fut : List String)
    (h : (eventIds s ++ pendingKeys s ++ (chunkCallIds c ++ fut)).Nodup) :
    (eventIds (processChunk sm env s c).1 ++ pendingKeys (processChunk sm env s c).1 ++
      fut).Nodup := by
  show (eventIds (processMsgs sm env _ c).1 ++ pendingKeys (processMsgs sm env _ c).1 ++
    fut).Nodup
  apply processMsgs_inv
  simpa [eventIds, pendingKeys] using h

theorem processStream_inv (sm : Bool) (env : Env) :
    ∀ (cs : List (List Msg)) (s : StState) (fut : List String),
      (eventIds s ++ pendingKeys s ++ (streamCallIds cs ++ fut)).Nodup →
      (eventIds (processStream sm env s cs).1 ++
        pendingKeys (processStream sm env s cs).1 ++ fut).Nodup := by
  intro cs
  induction cs with
  | nil => intro s fut h; simpa [streamCallIds] using h
  | cons c rest ih =>
    intro s fut h
    simp only [processStream]
    rcases hpc : processChunk sm env s c with ⟨s1, b⟩
    have hstep : (eventIds s1 ++ pendingKeys s1 ++ (streamCallIds rest ++ fut)).Nodup := by
      have h2 := processChunk_inv sm env c s (streamCallIds rest ++ fut)
        (by simpa [streamCallIds, chunkCallIds, List.append_assoc] using h)
      rwa [hpc] at h2
    cases b
    · exact ih s1 fut hstep
    · dsimp only
      have hsub : List.Sublist (eventIds s1 ++ pendingKeys s1 ++ fut)
          (eventIds s1 ++ pendingKeys s1 ++ (streamCallIds rest ++ fut)) :=
        List.Sublist.append_left (List.sublist_append_right _ _) _
      exact hsub.nodup hstep

theorem envCallIdsFrom_step (env : Env) (k : Nat) :
    envCallIdsFrom env k
      = streamCallIds (env.streams.getD k []) ++ envCallIdsFrom env (k + 1) := by
  unfold envCallIdsFrom
  by_cases hk : k < env.streams.length
  · rw [List.drop_eq_getElem_cons hk, List.map_cons, List.flatten_cons]
    congr 1
    rw [List.getD_eq_getElem?_getD, List.getElem?_eq_getElem hk]
    rfl
  · have hge : env.streams.length ≤ k := Nat.le_of_not_lt hk
    rw [List.drop_eq_nil_of_le hge, List.drop_eq_nil_of_le (le_trans hge (Nat.le_succ k))]
    rw [List.getD_eq_getElem?_getD, List.getElem?_eq_none hge]
    simp [streamCallIds]

theorem runLoopF_inv4 (sm : Bool) (env : Env) :
    ∀ (fuel : Nat) (s : StState),
      (eventIds s ++ pendingKeys s ++ envCallIdsFrom env s.invocations).Nodup →
      (eventIds (runLoopF sm env fuel s)).Nodup ∧
        (pendingKeys (runLoopF sm env fuel s)).Nodup := by
  intro fuel
  induction fuel with
  | zero => intro s h; exact nodup_head_two h
  | succ n ih =>
    intro s h
    simp only [runLoopF]
    rcases hps : processStream sm env { s with invocations := s.invocations + 1 }
        (env.streams.getD s.invocations []) with ⟨s1, b⟩
    dsimp only
    have hstep :
        (eventIds s1 ++ pendingKeys s1 ++ envCallIdsFrom env (s.invocations + 1)).Nodup := by
      have h2 := processStream_inv sm env (env.streams.getD s.invocations [])
        { s with invocations := s.invocations + 1 } (envCallIdsFrom env (s.invocations + 1))
        (by
          have h3 := h
          rw [envCallIdsFrom_step] at h3
          simpa [eventIds, pendingKeys] using h3)
      rwa [hps] at h2
    have hinv1 : s1.invocations = s.invocations + 1 := by
      have h4 := processStream_invocations sm env (env.streams.getD s.invocations [])
        { s with invocations := s.invocations + 1 }
      rwa [hps] at h4
    by_cases hcond : b = true ∧ s1.restartCount ≤ maxRestarts
    · rw [if_pos hcond]
      apply ih
      rw [hinv1]
      exact hstep
    · rw [if_neg hcond]
      exact nodup_head_two hstep

theorem mem_chunkCallIds (i : String) (c : List Msg) :
    i ∈ chunkCallIds c ↔ ∃ m ∈ c, i ∈ registrableIds m := by
  simp [chunkCallIds]

theorem resultIds_mono (i : String) (a b : List Msg) (hab : ∀ x ∈ a, x ∈ b)
    (h : i ∈ resultIds a) : i ∈ resultIds b := by
  rcases List.mem_filterMap.mp h with ⟨m, hm, hf⟩
  exact List.mem_filterMap.mpr ⟨m, hab m hm, hf⟩

theorem chunkCallIds_mono (i : String) (a b : List Msg) (hab : ∀ x ∈ a, x ∈ b)
    (h : i ∈ chunkCallIds a) : i ∈ chunkCallIds b := by
  rcases (mem_chunkCallIds i a).mp h with ⟨m, hm, hr⟩
  exact (mem_chunkCallIds i b).mpr ⟨m, hab m hm, hr⟩

theorem pairComplete_congr (a b : List Msg) (h : ∀ x, x ∈ a ↔ x ∈ b)
    (hp : pairComplete a) : pairComplete b := by
  intro i hi
  have h1 : i ∈ chunkCallIds a := chunkCallIds_mono i b a (fun x hx => (h x).mpr hx) hi
  exact resultIds_mono i a b (fun x hx => (h x).mp hx) (hp i h1)

theorem pairComplete_append (a b : List Msg) (ha : pairComplete a)
    (hb : pairComplete b) : pairComplete (a ++ b) := by
  intro i hi
  rcases (mem_chunkCallIds i (a ++ b)).mp hi with ⟨m, hm, hr⟩
  rcases List.mem_append.mp hm with hma | hmb
  · exact resultIds_mono i a (a ++ b) (fun x hx => List.mem_append.mpr (Or.inl hx))
      (ha i ((mem_chunkCallIds i a).mpr ⟨m, hma, hr⟩))
  · exact resultIds_mono i b (a ++ b) (fun x hx => List.mem_append.mpr (Or.inr hx))
      (hb i ((mem_chunkCallIds i b).mpr ⟨m, hmb, hr⟩))

theorem pairCompleteb_sound (acc : List Msg) (h : pairCompleteb acc = true) :
    pairComplete acc := by
  intro i hi
  have h1 := List.all_eq_true.mp h i hi
  simpa using h1

theorem hasToolMsg_of_mem (c : List Msg) (m : Msg) (hm : m ∈ c)
    (hr : m.role = Role.tool) : hasToolMsg c = true :=
  List.any_eq_true.mpr ⟨m, hm, by rw [hr]; rfl⟩

theorem pmsgs_snaps (sm : Bool) (env : Env) :
    ∀ (msgs : List Msg) (s : StState),
      GoodSnaps s →
      ((∃ m ∈ msgs, m.role = Role.tool) → pairComplete s.accumulated) →
      GoodSnaps (processMsgs sm env s msgs).1 ∧
        ((processMsgs sm env s msgs).2 = true →
          pairComplete (processMsgs sm env s msgs).1.accumulated) := by
  intro msgs
  induction msgs with
  | nil =>
    intro s hg hc
    refine ⟨hg, ?_⟩
    intro h
    simp [processMsgs] at h
  | cons m rest ih =>
    intro s hg hc
    simp only [processMsgs]
    rcases hpm : processMsg sm env s m with ⟨s1, b⟩
    have hacc := processMsg_acc sm env s m
    rw [hpm] at hacc
    cases b
    · dsimp only
      apply ih s1
      · have hsnp := processMsg_snaps_false sm env s m (by rw [hpm])
        rw [hpm] at hsnp
        intro sp hsp
        exact hg sp (hsnp ▸ hsp)
      · intro hex
        rw [show s1.accumulated = s.accumulated from hacc]
        rcases hex with ⟨mm, hmm, hrr⟩
        exact hc ⟨mm, List.mem_cons_of_mem m hmm, hrr⟩
    · dsimp only
      have hsnp := processMsg_snaps_true sm env s m (by rw [hpm])
      rw [hpm] at hsnp
      obtain ⟨hrole, hsnaps⟩ := hsnp
      have hpc : pairComplete s.accumulated := hc ⟨m, List.mem_cons_self m rest, hrole⟩
      constructor
      · intro sp hsp
        rw [hsnaps] at hsp
        rcases List.mem_append.mp hsp with hold | hnew
        · exact hg sp hold
        · rcases List.mem_singleton.mp hnew with rfl
          exact ⟨rfl, hpc⟩
      · intro _
        rw [show (s1, true).1.accumulated = s.accumulated from hacc]
        exact hpc

theorem pchunk_snaps (sm : Bool) (env : Env) (c : List Msg) (s : StState)
    (B done : List Msg)
    (hg : GoodSnaps s)
    (hB : pairComplete B)
    (hmem : ∀ x, x ∈ s.accumulated ↔ x ∈ B ∨ x ∈ done)
    (hwf : hasToolMsg c = true → pairCompleteb (done ++ c) = true) :
    GoodSnaps (processChunk sm env s c).1 ∧
      ((processChunk sm env s c).2 = true →
        pairComplete (processChunk sm env s c).1.accumulated) := by
  have h := pmsgs_snaps sm env c
    { s with accumulated := accumulate s.accumulated c, emitted := s.emitted ++ c }
    hg
    (by
      intro hex
      rcases hex with ⟨m, hm, hr⟩
      have hht := hasToolMsg_of_mem c m hm hr
      have hpc2 : pairComplete (done ++ c) := pairCompleteb_sound _ (hwf hht)
      have hpcB : pairComplete (B ++ (done ++ c)) := pairComplete_append _ _ hB hpc2
      show pairComplete (accumulate s.accumulated c)
      apply pairComplete_congr (B ++ (done ++ c)) _ _ hpcB
      intro x
      rw [accumulate_mem c s.accumulated x, hmem x]
      simp [or_assoc])
  exact h

theorem pchunk_accumulated (sm : Bool) (env : Env) (c : List Msg) (s : StState) :
    (processChunk sm env s c).1.accumulated = accumulate s.accumulated c := by
  show (processMsgs sm env _ c).1.accumulated = _
  rw [pmsgs_const sm env StState.accumulated (processMsg_acc sm env) c]

theorem pstream_snaps (sm : Bool) (env : Env) :
    ∀ (cs : List (List Msg)) (s : StState) (B done : List Msg),
      GoodSnaps s →
      pairComplete B →
      (∀ x, x ∈ s.accumulated ↔ x ∈ B ∨ x ∈ done) →
      streamWFAux done cs = true →
      GoodSnaps (processStream sm env s cs).1 ∧
        ((processStream sm env s cs).2 = true →
          pairComplete (processStream sm env s cs).1.accumulated) := by
  intro cs
  induction cs with
  | nil =>
    intro s B done hg hB hmem hwf
    refine ⟨hg, ?_⟩
    intro h
    simp [processStream] at h
  | cons c rest ih =>
    intro s B done hg hB hmem hwf
    rw [show streamWFAux done (c :: rest)
          = (((!hasToolMsg c) || pairCompleteb (done ++ c)) &&
              streamWFAux (done ++ c) rest) from rfl, Bool.and_eq_true] at hwf
    obtain ⟨hwf1, hwf2⟩ := hwf
    simp only [processStream]
    rcases hpc : processChunk sm env s c with ⟨s1, b⟩
    have hck := pchunk_snaps sm env c s B done hg hB hmem
      (fun hht => by simpa [hht] using hwf1)
    rw [hpc] at hck
    obtain ⟨hg1, hpc1⟩ := hck
    have hacc := pchunk_accumulated sm env c s
    rw [hpc] at hacc
    cases b
    · dsimp only
      refine ih s1 B (done ++ c) hg1 hB ?_ hwf2
      intro x
      rw [show s1.accumulated = accumulate s.accumulated c from hacc,
        accumulate_mem c s.accumulated x, hmem x]
      simp [or_assoc]
    · dsimp only
      exact ⟨hg1, fun _ => hpc1 rfl⟩

theorem runLoopF_snaps (sm : Bool) (env : Env)
    (hwf : ∀ st ∈ env.streams, streamWF st = true) :
    ∀ (fuel : Nat) (s : StState),
      GoodSnaps s →
      pairComplete s.accumulated →
      GoodSnaps (runLoopF sm env fuel s) := by
  intro fuel
  induction fuel with
  | zero => intro s hg _; exact hg
  | succ n ih =>
    intro s hg hpc
    simp only [runLoopF]
    rcases hps : processStream sm env { s with invocations := s.invocations + 1 }
        (env.streams.getD s.invocations []) with ⟨s1, b⟩
    dsimp only
    have hwfs : streamWFAux [] (env.streams.getD s.invocations []) = true := by
      by_cases hk : s.invocations < env.streams.length
      · have h1 : env.streams.getD s.invocations [] = env.streams[s.invocations] := by
          rw [List.getD_eq_getElem?_getD, List.getElem?_eq_getElem hk]
          rfl
        rw [h1]
        exact hwf _ (List.getElem_mem hk)
      · rw [List.getD_eq_getElem?_getD, List.getElem?_eq_none (Nat.le_of_not_lt hk)]
        rfl
    have hstep := pstream_snaps sm env (env.streams.getD s.invocations [])
      { s with invocations := s.invocations + 1 } s.accumulated [] hg hpc
      (fun x => by simp) hwfs
    rw [hps] at hstep
    obtain ⟨hg1, hpc1⟩ := hstep
    by_cases hcond : b = true ∧ s1.restartCount ≤ maxRestarts
    · rw [if_pos hcond]
      exact ih s1 hg1 (hpc1 hcond.1)
    · rw [if_neg hcond]
      exact hg1

theorem initAccum_pairComplete (hist : List Msg) (q : String)
    (hhist : ∀ m ∈ hist, m.toolCalls = []) :
    pairComplete (initAccum hist q) := by
  intro i hi
  exfalso
  rcases (mem_chunkCallIds i _).mp hi with ⟨m, hm, hr⟩
  rcases List.mem_append.mp hm with hmf | hmq
  · have hcalls : m.toolCalls = [] := hhist m (List.mem_of_mem_filter hmf)
    rcases m with ⟨role, content, calls, tcid⟩
    cases role <;> simp_all [registrableIds]
  · rcases List.mem_singleton.mp hmq with rfl
    simp [registrableIds] at hr

end Lemmas

/-- C9: with `use_server_manager=False`, `stream` never runs tool-set change
detection: `self._tools` keeps exactly the tool names it had after
initialization, the executor is never rebuilt (`executorGen` stays 0), no
restart ever fires, `server_manager.tools` is never read, and the inner
executor stream is invoked exactly once for the whole run. -/
theorem stream_no_server_manager_frame (env : Env) (tools0 used0 : List String)
    (hist : List Msg) (q : String) :
    (mcpStream false env tools0 used0 hist q).tools = tools0 ∧
    (mcpStream false env tools0 used0 hist q).executorGen = 0 ∧
    (mcpStream false env tools0 used0 hist q).restartCount = 0 ∧
    (mcpStream false env tools0 used0 hist q).readCount = 0 ∧
    (mcpStream false env tools0 used0 hist q).invocations = 1 := by
  have h := runLoopF_false env (maxRestarts + 1) (initState tools0 used0 hist q)
    (by norm_num [maxRestarts])
  exact h

/-- C2 (amended): the number of executor stream invocations in one `stream`
run never exceeds `MAX_RESTARTS + 1` (so at most `MAX_RESTARTS` restarts are
actually resumed), and the internal `restart_count` variable never exceeds
`MAX_RESTARTS + 1`; the run always finishes normally — restart exhaustion
only stops further restarting, it raises nothing. -/
theorem stream_restart_bounds (sm : Bool) (env : Env) (tools0 used0 : List String)
    (hist : List Msg) (q : String) :
    (mcpStream sm env tools0 used0 hist q).restartCount ≤ maxRestarts + 1 ∧
    (mcpStream sm env tools0 used0 hist q).invocations ≤ maxRestarts + 1 := by
  constructor
  · have h := runLoopF_rc_le sm env (maxRestarts + 1)
      (preCheck sm env (initState tools0 used0 hist q))
    rw [preCheck_restartCount] at h
    exact h
  · have h := runLoopF_inv_le sm env (maxRestarts + 1)
      (preCheck sm env (initState tools0 used0 hist q))
    rw [preCheck_invocations] at h
    exact h

/-- C2 (counterexample): a run in which four successive safe points each see
a changed tool set drives the `restart_count` variable to 4, strictly above
`MAX_RESTARTS = 3` — so "the restart counter never exceeds MAX_RESTARTS" is
false of the counter itself; what stays at most 3 is the number of resumed
executions (the executor is invoked 4 = MAX_RESTARTS + 1 times). -/
theorem stream_restart_counter_cex :
    (mcpStream true envRestarts ["t0"] [] [] "q").restartCount = 4 ∧
    ¬ (mcpStream true envRestarts ["t0"] [] [] "q").restartCount ≤ maxRestarts ∧
    (mcpStream true envRestarts ["t0"] [] [] "q").invocations = 4 := by
  decide

theorem mcpStream_used (sm : Bool) (env : Env) (tools0 used0 : List String)
    (hist : List Msg) (q : String) :
    (mcpStream sm env tools0 used0 hist q).toolsUsed
        = used0 ++ (mcpStream sm env tools0 used0 hist q).newToolNames ∧
      (mcpStream sm env tools0 used0 hist q).newToolNames
        = ((mcpStream sm env tools0 used0 hist q).toolCallsSeen).map ToolCall.name := by
  apply mcpStream_pres sm env
    (fun s => s.toolsUsed = used0 ++ s.newToolNames ∧
      s.newToolNames = s.toolCallsSeen.map ToolCall.name)
  · rintro s m ⟨ha, hb⟩
    constructor
    · rw [processMsg_toolsUsed, processMsg_newToolNames, ha, List.append_assoc]
    · rw [processMsg_newToolNames, processMsg_toolCallsSeen, hb, callNames_eq, List.map_append]
  · intro s c h; exact h
  · intro s h; exact h
  · intro s t g r h; exact h
  · exact ⟨(List.append_nil used0).symm, rfl⟩

/-- C10: `self.tools_used_names` only ever grows: a `stream` run appends to it
exactly one entry per tool invocation it observed, `close()` leaves it
untouched, and the `steps_taken` that `run` computes via
`_consume_and_return` (`len(self.tools_used_names)`) is the length of the
whole accumulated list — the total number of invocations recorded since the
agent was constructed, across runs, not the count of the current run
alone. -/
theorem tools_used_names_cumulative (sm : Bool) (env1 env2 : Env)
    (tools0 tools1 used0 : List String) (h1 h2 : List Msg) (q1 q2 : String)
    (tl : List String) (b : Bool) :
    (mcpStream sm env1 tools0 used0 h1 q1).toolsUsed
        = used0 ++ ((mcpStream sm env1 tools0 used0 h1 q1).toolCallsSeen).map ToolCall.name ∧
    (close ⟨(mcpStream sm env1 tools0 used0 h1 q1).toolsUsed, tl, b⟩).toolsUsedNames
        = (mcpStream sm env1 tools0 used0 h1 q1).toolsUsed ∧
    (mcpStream sm env2 tools1 (mcpStream sm env1 tools0 used0 h1 q1).toolsUsed h2 q2).toolsUsed
        = used0 ++ ((mcpStream sm env1 tools0 used0 h1 q1).toolCallsSeen).map ToolCall.name
            ++ ((mcpStream sm env2 tools1 (mcpStream sm env1 tools0 used0 h1 q1).toolsUsed
                  h2 q2).toolCallsSeen).map ToolCall.name ∧
    runSteps (mcpStream sm env2 tools1 (mcpStream sm env1 tools0 used0 h1 q1).toolsUsed h2 q2)
        = (used0 ++ ((mcpStream sm env1 tools0 used0 h1 q1).toolCallsSeen).map ToolCall.name
            ++ ((mcpStream sm env2 tools1 (mcpStream sm env1 tools0 used0 h1 q1).toolsUsed
                  h2 q2).toolCallsSeen).map ToolCall.name).length := by
  obtain ⟨ha1, hb1⟩ := mcpStream_used sm env1 tools0 used0 h1 q1
  obtain ⟨ha2, hb2⟩ :=
    mcpStream_used sm env2 tools1 (mcpStream sm env1 tools0 used0 h1 q1).toolsUsed h2 q2
  have e1 :
      (mcpStream sm env1 tools0 used0 h1 q1).toolsUsed
        = used0 ++ ((mcpStream sm env1 tools0 used0 h1 q1).toolCallsSeen).map ToolCall.name := by
    rw [ha1, hb1]
  have e2 :
      (mcpStream sm env2 tools1 (mcpStream sm env1 tools0 used0 h1 q1).toolsUsed h2 q2).toolsUsed
        = (mcpStream sm env1 tools0 used0 h1 q1).toolsUsed
            ++ ((mcpStream sm env2 tools1 (mcpStream sm env1 tools0 used0 h1 q1).toolsUsed
                  h2 q2).toolCallsSeen).map ToolCall.name := by
    rw [ha2, hb2]
  refine ⟨e1, rfl, ?_, ?_⟩
  · rw [e2, e1]
  · show (mcpStream sm env2 tools1 (mcpStream sm env1 tools0 used0 h1 q1).toolsUsed
        h2 q2).toolsUsed.length = _
    rw [e2, e1]

theorem mcpStream_final (sm : Bool) (env : Env) (tools0 used0 : List String)
    (hist : List Msg) (q : String) :
    (mcpStream sm env tools0 used0 hist q).finalOutput
      = (lastCandidate (mcpStream sm env tools0 used0 hist q).processedMsgs).map Msg.content := by
  apply mcpStream_pres sm env
    (fun s => s.finalOutput = (lastCandidate s.processedMsgs).map Msg.content)
  · intro s m h
    rw [processMsg_final, processMsg_processed, lastCandidate_append]
    by_cases hc : isCandidate m
    · rw [if_pos hc, if_pos hc]; rfl
    · rw [if_neg hc, if_neg hc]; exact h
  · intro s c h; exact h
  · intro s h; exact h
  · intro s t g r h; exact h
  · rfl

/-- C6 (amended): on the plain-text path, the terminal value yielded by
`stream` is the normalized text of the last assistant message without tool
calls processed during the run, provided that text is nonempty; when no such
candidate was produced — or when the candidate's normalized text is the
empty string, which `final_output or "No output generated"` also replaces —
the terminal value is the sentinel "No output generated". -/
theorem stream_terminal_value (sm : Bool) (env : Env) (tools0 used0 : List String)
    (hist : List Msg) (q : String) :
    terminalOf (mcpStream sm env tools0 used0 hist q)
      = match lastCandidate (mcpStream sm env tools0 used0 hist q).processedMsgs with
        | none => "No output generated"
        | some m =>
          if normalize_output m.content = "" then "No output generated"
          else normalize_output m.content := by
  unfold terminalOf
  rw [mcpStream_final]
  cases lastCandidate (mcpStream sm env tools0 used0 hist q).processedMsgs
  · rfl
  · rfl

/-- C6 (counterexample): a run whose last (and only) candidate final answer
is an assistant message with empty text yields the sentinel
"No output generated", not the candidate's normalized text "" — so the
terminal value is not always the normalized text of the last tool-call-free
assistant message. -/
theorem stream_terminal_empty_cex :
    lastCandidate (mcpStream false envEmptyFinal [] [] [] "q").processedMsgs
        = some (aiText "") ∧
    normalize_output (aiText "").content = "" ∧
    terminalOf (mcpStream false envEmptyFinal [] [] [] "q") = "No output generated" ∧
    "No output generated" ≠ "" := by
  refine ⟨by decide, rfl, ?_, by decide⟩
  have h := mcpStream_final false envEmptyFinal [] [] [] "q"
  have h2 : lastCandidate (mcpStream false envEmptyFinal [] [] [] "q").processedMsgs
      = some (aiText "") := by decide
  unfold terminalOf
  rw [h, h2]
  simp [aiText, normalize_output]

/-- C3 (amended): during accumulation, presence is judged by structural
equality of the whole message (LangChain messages are pydantic values and
`msg not in accumulated_messages` compares them by value): a message is in
the final `accumulated_messages` exactly when it is the initial history or
was emitted by some step, and if the seeded history has no duplicates the
accumulated list never acquires one — the same message value is never
appended twice. -/
theorem accumulate_membership (sm : Bool) (env : Env) (tools0 used0 : List String)
    (hist : List Msg) (q : String) (hnd : (initAccum hist q).Nodup) :
    (∀ x, x ∈ (mcpStream sm env tools0 used0 hist q).accumulated ↔
        x ∈ initAccum hist q ∨ x ∈ (mcpStream sm env tools0 used0 hist q).emitted) ∧
    (mcpStream sm env tools0 used0 hist q).accumulated.Nodup := by
  apply mcpStream_pres sm env
    (fun s => (∀ x, x ∈ s.accumulated ↔ x ∈ initAccum hist q ∨ x ∈ s.emitted) ∧
      s.accumulated.Nodup)
  · rintro s m ⟨hmem, hnd2⟩
    refine ⟨fun x => ?_, ?_⟩
    · rw [processMsg_acc, processMsg_emitted]
      exact hmem x
    · rw [processMsg_acc]
      exact hnd2
  · rintro s c ⟨hmem, hnd2⟩
    refine ⟨fun x => ?_, accumulate_nodup c _ hnd2⟩
    show x ∈ accumulate s.accumulated c ↔ x ∈ initAccum hist q ∨ x ∈ s.emitted ++ c
    rw [accumulate_mem, hmem x, List.mem_append]
    tauto
  · intro s h; exact h
  · intro s t g r h; exact h
  · refine ⟨fun x => ?_, hnd⟩
    show x ∈ initAccum hist q ↔ x ∈ initAccum hist q ∨ x ∈ ([] : List Msg)
    simp

theorem accumulate_membership_witness :
    (initAccum [] "q").Nodup ∧
      (mcpStream false envDup [] [] [] "q").accumulated.Nodup :=
  ⟨by decide, (accumulate_membership false envDup [] [] [] "q" (by decide)).2⟩

/-- C3 (counterexample): when a later step re-emits a message structurally
identical to an earlier one (here, the same assistant text in two different
node outputs of one stream), the second occurrence is dropped: it appears
twice in the emission trail but only once in `accumulated_messages`.  So
presence is decided by structural equality, not by call identifier or object
identity, and a legitimately new but structurally identical message is not
appended. -/
theorem accumulate_drops_duplicate_cex :
    (mcpStream false envDup [] [] [] "q").emitted.count (aiText "dup") = 2 ∧
    (mcpStream false envDup [] [] [] "q").accumulated.count (aiText "dup") = 1 := by
  decide

/-- C5 (code evaluation): the validation inside
`_attempt_structured_output` computes `required` as
`field_info.default is None`.  A pydantic field declared without a default —
a *required* field, like `temperature` in the `WeatherInfo` example of the
`run` docstring — carries `PydanticUndefined` as its default, so the code
marks it NOT required and skips its check: a result whose required
`temperature` is the empty string passes validation and is yielded, with no
"Failed to generate structured output" error.  The last two conjuncts show
the check and the distinct error do fire, but only for fields whose declared
default is Python `None` (pydantic's *optional* idiom). -/
theorem structured_output_required_skipped :
    requiredByPydantic ⟨"temperature", .undefined⟩ = true ∧
    requiredByCode ⟨"temperature", .undefined⟩ = false ∧
    validateFields [⟨"temperature", .undefined⟩] [("temperature", .fstr "")] = .ok () ∧
    structuredOutcome
        (validateFields [⟨"temperature", .undefined⟩] [("temperature", .fstr "")])
      = .ok () ∧
    validateFields [⟨"temperature", .none⟩] [("temperature", .fstr "")]
      = .error "Required field \x27temperature\x27 is missing or empty" ∧
    structuredOutcome (validateFields [⟨"temperature", .none⟩] [("temperature", .fstr "")])
      = .error ("Failed to generate structured output: " ++
          "Required field \x27temperature\x27 is missing or empty") := by
  exact ⟨rfl, rfl, rfl, rfl, rfl, rfl⟩

/-- C7: when the single model call of `_generate_reasoning_plan` fails with
any exception, the method returns (never raises) the fallback plan, and that
plan contains the literal query text, the enumerated tool listing, and the
annotation that automatic planning failed. -/
theorem reasoning_plan_fallback (q : String) (tools : List (String × String × String))
    (e : String) :
    strSub q (genReasoningPlan q tools (.error e)) ∧
    strSub (toolInfoString tools) (genReasoningPlan q tools (.error e)) ∧
    strSub "Automatic planning failed" (genReasoningPlan q tools (.error e)) := by
  unfold genReasoningPlan strSub
  refine ⟨?_, ?_, ?_⟩
  · exact ⟨("\n" ++ eqLine ++ "\nREASONING PLAN\n" ++ eqLine ++ "\nQuery: ").data,
      ("\n\nAvailable Tools:\n" ++ toolInfoString tools ++
        "\n\nNote: Automatic planning failed. The agent will proceed with available tools.\n" ++
        eqLine ++ "\n").data,
      by simp [strData_append]⟩
  · exact ⟨("\n" ++ eqLine ++ "\nREASONING PLAN\n" ++ eqLine ++ "\nQuery: " ++ q ++
        "\n\nAvailable Tools:\n").data,
      ("\n\nNote: Automatic planning failed. The agent will proceed with available tools.\n" ++
        eqLine ++ "\n").data,
      by simp [strData_append]⟩
  · have h1 : ("Automatic planning failed").data <:+:
        ("\n\nNote: Automatic planning failed. The agent will proceed with available tools.\n").data := by
      decide
    refine h1.trans ?_
    exact ⟨("\n" ++ eqLine ++ "\nREASONING PLAN\n" ++ eqLine ++ "\nQuery: " ++ q ++
        "\n\nAvailable Tools:\n" ++ toolInfoString tools).data,
      (eqLine ++ "\n").data,
      by simp [strData_append]⟩

/-- C8 (counterexample): the list branch of `_normalize_output` is not the
pointwise extension of `_normalize_output` itself: a provider text block
with a `.text` attribute and no `.content` contributes its text when it
occurs inside a list, but normalizes to its `str()` rendering when passed
alone — so "a list normalizes to the concatenation of the normalizations of
its parts" fails at this one-element list. -/
theorem normalize_list_item_cex :
    normalize_output (Val.vlist [Val.vobj (some (Val.vstr "a")) none "txtblock"]) = "a" ∧
    normalize_output (Val.vobj (some (Val.vstr "a")) none "txtblock") = "txtblock" ∧
    ¬ normalize_output (Val.vlist [Val.vobj (some (Val.vstr "a")) none "txtblock"])
        = String.join
            ([Val.vobj (some (Val.vstr "a")) none "txtblock"].map normalize_output) := by
  decide

/-- C8 (amended): the recursive contract `_normalize_output` actually
satisfies: a string is returned unchanged; a value carrying a `.content`
payload returns the normalization of that payload; a list returns the
concatenation of the per-item normalizations `normPart` — and `normPart`
agrees with `_normalize_output` on strings, nested lists and
content-carrying objects, but reads `"text"` entries of dicts and `.text`
attributes of objects directly instead of recursing. -/
theorem normalize_output_contract :
    (∀ s, normalize_output (Val.vstr s) = s) ∧
    (∀ (t : Option Val) (c : Val) (rep : String),
      normalize_output (Val.vobj t (some c) rep) = normalize_output c) ∧
    normalize_output (Val.vlist []) = "" ∧
    (∀ (x : Val) (xs : List Val),
      normalize_output (Val.vlist (x :: xs)) = normPart x ++ normalize_output (Val.vlist xs)) ∧
    (∀ s, normPart (Val.vstr s) = normalize_output (Val.vstr s)) ∧
    (∀ items : List Val, normPart (Val.vlist items) = normalize_output (Val.vlist items)) ∧
    (∀ (c : Val) (rep : String),
      normPart (Val.vobj none (some c) rep) = normalize_output (Val.vobj none (some c) rep)) := by
  exact ⟨fun s => rfl, fun t c rep => rfl, rfl, fun x xs => rfl, fun s => rfl,
    fun items => rfl, fun c rep => rfl⟩

/-- C4: under the data model's uniqueness of call identifiers within a run
(no two tool calls emitted by the scripted executor carry the same truthy
id), a whole `stream` run registers at most one pending tool call per call
identifier (`pending_tool_calls` is keyed by id and a result pops its key),
and emits at most one `(action, observation)` event per call identifier:
the final `events` trail and the final pending-key list are both free of
duplicate call identifiers. -/
theorem tool_result_pairing_unique (sm : Bool) (env : Env) (tools0 used0 : List String)
    (hist : List Msg) (q : String) (h : (allCallIds env).Nodup) :
    (eventIds (mcpStream sm env tools0 used0 hist q)).Nodup ∧
    (pendingKeys (mcpStream sm env tools0 used0 hist q)).Nodup := by
  unfold mcpStream
  apply runLoopF_inv4
  obtain ⟨t, g, r, hsh⟩ := preCheck_shape sm env (initState tools0 used0 hist q)
  rw [hsh]
  simpa [eventIds, pendingKeys, initState, allCallIds] using h

/-- C1: in a run whose conversation history carries no tool calls and whose
executor streams satisfy the LangGraph well-formedness contract (a chunk
with tool-result messages arrives only once the stream's messages so far
are pairing-complete), every executor rebuild-and-restart fires right after
a tool-result message was processed — the recorded last-processed role of
every restart is `tool`, never an assistant message with pending calls —
and at each such point every previously emitted tool invocation in
`accumulated_messages` already has its matching tool result accumulated. -/
theorem restart_only_after_tool_result (sm : Bool) (env : Env)
    (tools0 used0 : List String) (hist : List Msg) (q : String)
    (hhist : ∀ m ∈ hist, m.toolCalls = [])
    (hwf : ∀ st ∈ env.streams, streamWF st = true) :
    ∀ sp ∈ (mcpStream sm env tools0 used0 hist q).restartSnaps,
      sp.lastRole = Role.tool ∧ pairComplete sp.acc := by
  show GoodSnaps (mcpStream sm env tools0 used0 hist q)
  unfold mcpStream
  obtain ⟨t, g, r, hsh⟩ := preCheck_shape sm env (initState tools0 used0 hist q)
  rw [hsh]
  apply runLoopF_snaps sm env hwf
  · intro sp hsp
    exact absurd hsp (List.not_mem_nil sp)
  · show pairComplete (initAccum hist q)
    exact initAccum_pairComplete hist q hhist

theorem restart_only_after_tool_result_witness :
    (∀ m ∈ ([] : List Msg), m.toolCalls = []) ∧
      (∀ st ∈ envOneRestart.streams, streamWF st = true) ∧
      (∀ sp ∈ (mcpStream true envOneRestart ["a"] [] [] "q").restartSnaps,
        sp.lastRole = Role.tool ∧ pairComplete sp.acc) ∧
      (mcpStream true envOneRestart ["a"] [] [] "q").restartSnaps.length = 1 :=
  ⟨fun m hm => absurd hm (List.not_mem_nil m), by decide,
    restart_only_after_tool_result true envOneRestart ["a"] [] [] "q"
      (fun m hm => absurd hm (List.not_mem_nil m)) (by decide),
    by decide⟩

theorem tool_result_pairing_unique_witness :
    (allCallIds envOneRestart).Nodup ∧
      ((eventIds (mcpStream true envOneRestart ["a"] [] [] "q")).Nodup ∧
        (pendingKeys (mcpStream true envOneRestart ["a"] [] [] "q")).Nodup) ∧
      eventIds (mcpStream true envOneRestart ["a"] [] [] "q") = ["c1"] :=
  ⟨by decide,
    tool_result_pairing_unique true envOneRestart ["a"] [] [] "q" (by decide),
    by decide⟩

end McpUse
